import Mathlib

/-!
Verification development for the dynlex compiler front end.
Shallow embedding of the pattern pipeline (src/src/compiler/*) in Lean 4.

Machine integers from the C++ source are modelled as `Int`/`Nat`; all
embedded functions are executable.
-/

/- ### Types (src/src/compiler/type.h) -/

/-- `Type::Kind` from src/src/compiler/type.h. -/
inductive TyKind where
  | undeduced
  | void
  | bool
  | numeric
  | integer
  | float
  | string
deriving DecidableEq, Repr

/-- `struct Type` from src/src/compiler/type.h: kind, byteSize (C++ `int`),
pointerDepth (C++ `int`). -/
structure Ty where
  kind : TyKind
  byteSize : Int
  pointerDepth : Int
deriving DecidableEq, Repr

/-- `Type::isNumeric` (type.h line 29). -/
def Ty.isNumeric (t : Ty) : Bool :=
  t.pointerDepth == 0 && (t.kind == .numeric || t.kind == .integer || t.kind == .float)

/-- `Type::isPointer` (type.h line 32). -/
def Ty.isPointer (t : Ty) : Bool := t.pointerDepth > 0

/-- `Type::isDeduced` (type.h line 33). -/
def Ty.isDeduced (t : Ty) : Bool := t.kind != .undeduced

/-- `Type::promote` (type.h lines 64-89). The C++ asserts that both operands
are numeric or undeduced; past the asserts the computation is total and is
mirrored here verbatim. -/
def Ty.promote (a b : Ty) : Ty :=
  if a.kind = .float ∨ b.kind = .float then
    let aSize : Int := if a.kind = .float then a.byteSize else 0
    let bSize : Int := if b.kind = .float then b.byteSize else 0
    let floatSize : Int := max aSize bSize
    let floatSize : Int :=
      if a.kind = .integer ∨ b.kind = .integer then
        let intSize : Int := if a.kind = .integer then a.byteSize else b.byteSize
        max floatSize intSize
      else floatSize
    ⟨.float, floatSize, 0⟩
  else if a.kind = .integer ∨ b.kind = .integer then
    let aSize : Int := if a.kind = .integer then a.byteSize else 0
    let bSize : Int := if b.kind = .integer then b.byteSize else 0
    ⟨.integer, max aSize bSize, 0⟩
  else if a.kind = .numeric ∨ b.kind = .numeric then ⟨.numeric, 0, 0⟩
  else ⟨.undeduced, 0, 0⟩

/-- `Type::promoteArithmetic` (type.h lines 92-98). -/
def Ty.promoteArithmetic (a b : Ty) : Ty :=
  if a.isPointer ∧ (b.isNumeric ∨ b.kind = .undeduced) then a
  else if b.isPointer ∧ (a.isNumeric ∨ a.kind = .undeduced) then b
  else Ty.promote a b

theorem Ty.promote_comm_total (a b : Ty) : Ty.promote a b = Ty.promote b a := by
  obtain ⟨ka, sa, pa⟩ := a
  obtain ⟨kb, sb, pb⟩ := b
  cases ka <;> cases kb <;> simp [Ty.promote, Int.max_comm]

/-- C10: `Type::promote` is commutative on numeric-or-undeduced operands, and
`Type::promoteArithmetic` is commutative whenever at most one operand is a
pointer. -/
theorem promote_and_promoteArithmetic_comm :
    (∀ a b : Ty, (a.isNumeric ∨ a.kind = .undeduced) → (b.isNumeric ∨ b.kind = .undeduced) →
      Ty.promote a b = Ty.promote b a) ∧
    (∀ a b : Ty, ¬(a.isPointer ∧ b.isPointer) →
      Ty.promoteArithmetic a b = Ty.promoteArithmetic b a) := by
  constructor
  · intro a b _ _
    exact Ty.promote_comm_total a b
  · intro a b hp
    unfold Ty.promoteArithmetic
    split_ifs <;>
      first
        | rfl
        | exact Ty.promote_comm_total a b
        | tauto

/-- Witness for C10 at concrete inputs. -/
theorem promote_and_promoteArithmetic_comm_witness :
    Ty.promote ⟨.integer, 4, 0⟩ ⟨.float, 8, 0⟩ = Ty.promote ⟨.float, 8, 0⟩ ⟨.integer, 4, 0⟩ ∧
    Ty.promoteArithmetic ⟨.integer, 8, 1⟩ ⟨.numeric, 0, 0⟩ =
      Ty.promoteArithmetic ⟨.numeric, 0, 0⟩ ⟨.integer, 8, 1⟩ :=
  ⟨promote_and_promoteArithmetic_comm.1 _ _ (Or.inl (by decide)) (Or.inl (by decide)),
   promote_and_promoteArithmetic_comm.2 _ _ (by decide)⟩

/- ### Expressions (src/src/compiler/expression.h) -/

/-- `Expression::Kind` from expression.h. -/
inductive ExprKind where
  | literal
  | var
  | patternCall
  | intrinsicCall
  | pending
deriving DecidableEq, Repr

/-- `Expression::literalValue`, a `std::variant<std::monostate, int64_t, double,
std::string>`. The double payload is not carried: no embedded claim inspects a
float literal's value. -/
inductive LitVal where
  | noneVal
  | intVal (v : Int)
  | floatVal
  | strVal (s : String)
deriving DecidableEq, Repr

/-- `struct Expression` (expression.h): kind, literal value, inferred type,
intrinsic name and argument subtrees. Source ranges and resolution pointers are
not needed by the typing claims. -/
inductive Expr where
  | mk (kind : ExprKind) (literalValue : LitVal) (type : Ty) (intrinsicName : String)
      (arguments : List Expr)

def Expr.kind : Expr → ExprKind
  | .mk k _ _ _ _ => k

def Expr.literalValue : Expr → LitVal
  | .mk _ lv _ _ _ => lv

def Expr.type : Expr → Ty
  | .mk _ _ t _ _ => t

def Expr.arguments : Expr → List Expr
  | .mk _ _ _ _ args => args

/- ### Numeric defaulting after type inference (compiler.cpp lines 849-901,
called from inferTypes at lines 984-989) -/

mutual
/-- `defaultNumericExpressions` (compiler.cpp lines 852-867): a node whose type
kind is Numeric becomes Integer; the byte size is 8 for an int literal outside
the int32 range and 4 otherwise; then recurse into the arguments. -/
def defaultNumericExpressions : Expr → Expr
  | .mk k lv t nm args =>
    let t' : Ty :=
      if t.kind = .numeric then
        let size : Int :=
          match k, lv with
          | .literal, .intVal v => if v < -2147483648 ∨ v > 2147483647 then 8 else 4
          | _, _ => 4
        ⟨.integer, size, 0⟩
      else t
    .mk k lv t' nm (defaultNumericExpressionsList args)

def defaultNumericExpressionsList : List Expr → List Expr
  | [] => []
  | e :: es => defaultNumericExpressions e :: defaultNumericExpressionsList es
end

/-- A section as seen by `defaultNumericTypes`: its variables' types, the class
instantiation field types (for Class sections), the monomorphization
instantiations (argument types and return type), and child sections
(section.h / classDefinition.h). -/
inductive SectionT where
  | mk (vars : List (String × Ty)) (isClass : Bool)
      (classInstantiations : List (List Ty)) (instantiations : List (List Ty × Ty))
      (children : List SectionT)

def SectionT.vars : SectionT → List (String × Ty)
  | .mk vs _ _ _ _ => vs

def SectionT.children : SectionT → List SectionT
  | .mk _ _ _ _ cs => cs

/-- The per-type rule of `defaultNumericTypes`: Numeric becomes Integer(4). -/
def defaultTyToI32 (t : Ty) : Ty := if t.kind = .numeric then ⟨.integer, 4, 0⟩ else t

mutual
/-- `defaultNumericTypes` (compiler.cpp lines 869-901): default every still-
Numeric variable type, class instantiation field type, and instantiation
argument/return type to Integer(4), then recurse into child sections. The
instantiation map is kept as an association list, so the C++ `std::map` re-key
step is a pointwise update here. -/
def defaultNumericTypes : SectionT → SectionT
  | .mk vs isC cinsts insts children =>
    .mk (vs.map (fun nv => (nv.1, defaultTyToI32 nv.2))) isC
      (cinsts.map (fun fts => fts.map defaultTyToI32))
      (insts.map (fun ai => (ai.1.map defaultTyToI32, defaultTyToI32 ai.2)))
      (defaultNumericTypesList children)

def defaultNumericTypesList : List SectionT → List SectionT
  | [] => []
  | s :: ss => defaultNumericTypes s :: defaultNumericTypesList ss
end

mutual
/-- All nodes of an expression tree, in preorder, as (kind, literal, type)
triples. -/
def exprNodes : Expr → List (ExprKind × LitVal × Ty)
  | .mk k lv t _ args => (k, lv, t) :: exprNodesList args

def exprNodesList : List Expr → List (ExprKind × LitVal × Ty)
  | [] => []
  | e :: es => exprNodes e ++ exprNodesList es
end

mutual
/-- All variables of a section subtree (preorder). -/
def sectionTreeVars : SectionT → List (String × Ty)
  | .mk vs _ _ _ children => vs ++ sectionTreeVarsList children

def sectionTreeVarsList : List SectionT → List (String × Ty)
  | [] => []
  | s :: ss => sectionTreeVars s ++ sectionTreeVarsList ss
end

/-- The defaulting rule exactly as the claim states it, for comparison with the
source-derived `defaultNumericExpressions`: an expression whose type is still
Numeric is assigned Integer(4), except an integer literal whose value lies
outside the int32 range, which is assigned Integer(8). -/
def claimExprDefault (k : ExprKind) (lv : LitVal) (t : Ty) : Ty :=
  if t.kind = .numeric then
    match k, lv with
    | .literal, .intVal v =>
      if v < -2147483648 ∨ v > 2147483647 then ⟨.integer, 8, 0⟩ else ⟨.integer, 4, 0⟩
    | _, _ => ⟨.integer, 4, 0⟩
  else t

/-- The variable rule exactly as the claim states it: a variable whose type is
still Numeric is assigned Integer(4). -/
def claimVarDefault (t : Ty) : Ty := if t.kind = .numeric then ⟨.integer, 4, 0⟩ else t

mutual
theorem exprNodes_defaultNumeric (e : Expr) :
    exprNodes (defaultNumericExpressions e) =
      (exprNodes e).map (fun n => (n.1, n.2.1, claimExprDefault n.1 n.2.1 n.2.2)) := by
  cases e with
  | mk k lv t nm args =>
    have h := exprNodesList_defaultNumeric args
    simp only [defaultNumericExpressions, exprNodes, List.map_cons, h]
    congr 1
    simp only [claimExprDefault, Prod.mk.injEq, true_and]
    by_cases hnum : t.kind = .numeric
    · simp only [if_pos hnum]
      cases k <;> cases lv <;> simp <;> split_ifs <;> rfl
    · simp [hnum]

theorem exprNodesList_defaultNumeric (l : List Expr) :
    exprNodesList (defaultNumericExpressionsList l) =
      (exprNodesList l).map (fun n => (n.1, n.2.1, claimExprDefault n.1 n.2.1 n.2.2)) := by
  cases l with
  | nil => simp [defaultNumericExpressionsList, exprNodesList]
  | cons e es =>
    simp [defaultNumericExpressionsList, exprNodesList, exprNodes_defaultNumeric e,
      exprNodesList_defaultNumeric es]
end

mutual
theorem sectionTreeVars_defaultNumeric (s : SectionT) :
    sectionTreeVars (defaultNumericTypes s) =
      (sectionTreeVars s).map (fun nv => (nv.1, claimVarDefault nv.2)) := by
  cases s with
  | mk vs isC cinsts insts children =>
    have h := sectionTreeVarsList_defaultNumeric children
    simp [defaultNumericTypes, sectionTreeVars, h, claimVarDefault, defaultTyToI32]

theorem sectionTreeVarsList_defaultNumeric (l : List SectionT) :
    sectionTreeVarsList (defaultNumericTypesList l) =
      (sectionTreeVarsList l).map (fun nv => (nv.1, claimVarDefault nv.2)) := by
  cases l with
  | nil => simp [defaultNumericTypesList, sectionTreeVarsList]
  | cons s ss =>
    simp [defaultNumericTypesList, sectionTreeVarsList, sectionTreeVars_defaultNumeric s,
      sectionTreeVarsList_defaultNumeric ss]
end

/-- C6: after the fixed-point loop, `inferTypes` (compiler.cpp lines 984-989)
runs `defaultNumericExpressions` on every line's expression and
`defaultNumericTypes` on the section tree; every expression node still typed
Numeric receives Integer(4) — except an integer literal outside
[-2^31, 2^31-1], which receives Integer(8) — and every still-Numeric variable
receives Integer(4). -/
theorem inferTypes_numeric_defaulting :
    (∀ e : Expr,
      exprNodes (defaultNumericExpressions e) =
        (exprNodes e).map (fun n => (n.1, n.2.1, claimExprDefault n.1 n.2.1 n.2.2))) ∧
    (∀ s : SectionT,
      sectionTreeVars (defaultNumericTypes s) =
        (sectionTreeVars s).map (fun nv => (nv.1, claimVarDefault nv.2))) :=
  ⟨exprNodes_defaultNumeric, sectionTreeVars_defaultNumeric⟩

/- ### Diagnostics (struct Diagnostic; levels per the diagnostic stream
contract, severities Error / Warning / Info / Hint) -/

inductive DiagLevel where
  | error
  | warning
  | info
  | hint
deriving DecidableEq, Repr

/-- A diagnostic entry: severity level and message. Source ranges are not
inspected by any embedded claim and are omitted. -/
structure Diag where
  level : DiagLevel
  message : String
deriving DecidableEq, Repr

/- ### Importer (src/src/compiler/compiler.cpp lines 42-96) -/

/-- The `FileProvider` abstraction (`lsp::FileSystem`): file contents by path,
already split into lines (the C++ splits with the line-terminator regex). -/
def FileSys := List (String × List String)

/-- A `CodeLine` as built by `importSourceFile`. -/
structure CodeLineM where
  sourcePath : String
  sourceFileLineIndex : Nat
  text : String
  rightTrimmedText : String
  mergedLineIndex : Nat
deriving DecidableEq, Repr

/-- The parts of `ParseContext` that `importSourceFile` touches:
`importedFiles`, `codeLines`, `diagnostics`. -/
structure ImportSt where
  importedFiles : List String
  codeLines : List CodeLineM
  diagnostics : List Diag
deriving DecidableEq, Repr

/-- `findCommentStart` (compiler.cpp lines 21-32): position of the first `#`
outside a string literal; a quote is ignored when escaped by a backslash. -/
def findCommentStartAux : List Char → Option Char → Bool → Nat → Option Nat
  | [], _, _, _ => none
  | c :: cs, prev, inString, i =>
    if c = '"' ∧ (prev = none ∨ prev ≠ some '\\') then
      findCommentStartAux cs (some c) (!inString) (i + 1)
    else if c = '#' ∧ !inString then some i
    else findCommentStartAux cs (some c) inString (i + 1)

def findCommentStart (line : String) : Option Nat :=
  findCommentStartAux line.toList none false 0

/-- Strip the comment (if any) from a line, as in compiler.cpp lines 70-72. -/
def removeComment (line : String) : String :=
  match findCommentStart line with
  | some i => ⟨line.toList.take i⟩
  | none => line

/-- Trailing-whitespace trim, the `[\s]+$` removal of compiler.cpp lines 75-77. -/
def rightTrim (s : String) : String :=
  ⟨(s.toList.reverse.dropWhile Char.isWhitespace).reverse⟩

/-- The per-line loop of `importSourceFile` (compiler.cpp lines 65-94),
abstracted over the recursive import call `impF`: strip the comment,
right-trim, recursively expand an `import ` line (propagating failure with a
diagnostic), otherwise append the line to `codeLines` with the next merged
line index. -/
def importLinesF (impF : String → ImportSt → Option (ImportSt × Bool)) (srcPath : String) :
    Nat → List String → ImportSt → Option (ImportSt × Bool)
  | _, [], st => some (st, true)
  | idx, line :: rest, st =>
    let rightTrimmed := rightTrim (removeComment line)
    if rightTrimmed.startsWith "import " then
      match impF (rightTrimmed.drop 7) st with
      | none => none
      | some (st', true) => importLinesF impF srcPath (idx + 1) rest st'
      | some (st', false) =>
        some ({ st' with diagnostics := st'.diagnostics ++
          [⟨.error, "failed to import source file: " ++ rightTrimmed.drop 7⟩] }, false)
    else
      importLinesF impF srcPath (idx + 1) rest
        { st with codeLines := st.codeLines ++
            [{ sourcePath := srcPath, sourceFileLineIndex := idx, text := line,
               rightTrimmedText := rightTrimmed, mergedLineIndex := st.codeLines.length }] }

/-- `importSourceFile` (compiler.cpp lines 42-96). The C++ call stack is
modelled with explicit fuel, structurally decreasing at each nested import:
`none` means the recursion depth exceeded the fuel, so a proof that the result
is `some` for sufficient fuel is a proof of termination. An already-imported
path returns immediately with success (circular import protection, lines
44-46); otherwise the path is recorded as imported before its lines are
expanded. -/
def importSourceFile : Nat → FileSys → String → ImportSt → Option (ImportSt × Bool)
  | 0, _, _, _ => none
  | fuel + 1, fs, path, st =>
    if st.importedFiles.contains path then some (st, true)
    else
      match List.lookup path fs with
      | none =>
        let st' :=
          if st.importedFiles.isEmpty then
            { st with diagnostics :=
                st.diagnostics ++ [⟨.error, "couldn't import main file: " ++ path⟩] }
          else st
        some (st', false)
      | some lines =>
        importLinesF (fun p s => importSourceFile fuel fs p s) path 0 lines
          { st with importedFiles := st.importedFiles ++ [path] }

/-- The paths the file provider can serve. -/
def fileKeys (fs : FileSys) : List String := fs.map Prod.fst

/-- Number of files the provider can serve that have not been imported yet:
the measure that bounds the import recursion depth. -/
def freshCount (fs : FileSys) (st : ImportSt) : Nat :=
  ((fileKeys fs).filter (fun p => !st.importedFiles.contains p)).length

theorem containsIffMem (l : List String) (p : String) : l.contains p = true ↔ p ∈ l := by
  induction l with
  | nil => simp
  | cons a t ih => simp [List.contains] at *

theorem containsAppendOneTrue (l : List String) (a p : String) (h : l.contains p = true) :
    (l ++ [a]).contains p = true := by
  rw [containsIffMem] at *
  exact List.mem_append.mpr (Or.inl h)

theorem containsAppendOneIff (l : List String) (a p : String) :
    (l ++ [a]).contains p = true ↔ (p ∈ l ∨ p = a) := by
  rw [containsIffMem]; simp

theorem lengthFilterMono (l : List String) (p q : String → Bool)
    (h : ∀ a ∈ l, p a = true → q a = true) :
    (l.filter p).length ≤ (l.filter q).length := by
  induction l with
  | nil => simp
  | cons b t ih =>
    have ht : ∀ a ∈ t, p a = true → q a = true := fun a ha => h a (List.mem_cons_of_mem b ha)
    simp only [List.filter_cons]
    by_cases hp : p b = true
    · have hq := h b (List.mem_cons_self b t) hp
      simp only [hp, hq, if_pos, List.length_cons]
      exact Nat.succ_le_succ (ih ht)
    · rw [if_neg hp]
      by_cases hq : q b = true
      · rw [if_pos hq]
        exact Nat.le_succ_of_le (ih ht)
      · rw [if_neg hq]
        exact ih ht

theorem lengthFilterLt (l : List String) (p q : String → Bool)
    (h : ∀ a ∈ l, p a = true → q a = true) (a : String)
    (ha : a ∈ l) (hqa : q a = true) (hpa : p a = false) :
    (l.filter p).length < (l.filter q).length := by
  induction l with
  | nil => simp at ha
  | cons b t ih =>
    have ht : ∀ x ∈ t, p x = true → q x = true := fun x hx => h x (List.mem_cons_of_mem b hx)
    simp only [List.filter_cons]
    rcases List.mem_cons.mp ha with rfl | hat
    · rw [if_neg (by simp [hpa]), if_pos hqa]
      exact Nat.lt_succ_of_le (lengthFilterMono t p q ht)
    · by_cases hpb : p b = true
      · have hqb := h b (List.mem_cons_self b t) hpb
        rw [if_pos hpb, if_pos hqb]
        exact Nat.succ_lt_succ (ih ht hat)
      · rw [if_neg hpb]
        by_cases hqb : q b = true
        · rw [if_pos hqb]
          exact Nat.lt_succ_of_lt (ih ht hat)
        · rw [if_neg hqb]
          exact ih ht hat

theorem memKeysOfLookup {fs : FileSys} {path : String} {v : List String}
    (h : List.lookup path fs = some v) : path ∈ fileKeys fs := by
  induction fs with
  | nil => simp [List.lookup] at h
  | cons kv t ih =>
    obtain ⟨k, w⟩ := kv
    by_cases he : path = k
    · simp [fileKeys, he]
    · have hbe : (path == k) = false := by simp [he]
      simp only [List.lookup, hbe] at h
      exact List.mem_cons_of_mem _ (ih h)

/-- Importing a fresh, servable path strictly shrinks the number of servable
not-yet-imported paths. -/
theorem freshCountInsertLt (fs : FileSys) (st : ImportSt) (path : String)
    (hmem : path ∈ fileKeys fs) (hni : st.importedFiles.contains path = false) :
    freshCount fs { st with importedFiles := st.importedFiles ++ [path] } < freshCount fs st := by
  have himp : ∀ a ∈ fileKeys fs,
      (!(st.importedFiles ++ [path]).contains a) = true → (!st.importedFiles.contains a) = true := by
    intro a _ hna
    simp only [Bool.not_eq_true'] at hna ⊢
    cases hcc : st.importedFiles.contains a
    · rfl
    · rw [containsAppendOneTrue _ path a hcc] at hna
      exact Bool.noConfusion hna
  have hq : (!st.importedFiles.contains path) = true := by rw [hni]; rfl
  have hp : (!(st.importedFiles ++ [path]).contains path) = false := by
    have h1 : (st.importedFiles ++ [path]).contains path = true :=
      (containsAppendOneIff _ _ _).mpr (Or.inr rfl)
    rw [h1]; rfl
  exact lengthFilterLt (fileKeys fs) _ _ himp path hmem hq hp

theorem freshCountMonoOfContains (fs : FileSys) (st st' : ImportSt)
    (h : ∀ p, st.importedFiles.contains p = true → st'.importedFiles.contains p = true) :
    freshCount fs st' ≤ freshCount fs st := by
  apply lengthFilterMono
  intro a _ ha
  simp only [Bool.not_eq_true'] at ha ⊢
  cases hcc : st.importedFiles.contains a
  · rfl
  · rw [h a hcc] at ha
    exact Bool.noConfusion ha


/-- Any property of the imported-files set preserved by `impF` is preserved by
the line loop (the loop itself never touches `importedFiles`). -/
theorem importLinesFPreserve (impF : String → ImportSt → Option (ImportSt × Bool))
    (Q : List String → Prop)
    (hQ : ∀ path st r, impF path st = some r → Q st.importedFiles → Q r.1.importedFiles) :
    ∀ sp idx lines st r, importLinesF impF sp idx lines st = some r →
      Q st.importedFiles → Q r.1.importedFiles := by
  intro sp idx lines
  induction lines generalizing idx with
  | nil =>
    intro st r h hq
    simp only [importLinesF, Option.some.injEq] at h
    rw [← h]
    exact hq
  | cons line rest ih =>
    intro st r h hq
    simp only [importLinesF] at h
    split at h
    · cases him : impF ((rightTrim (removeComment line)).drop 7) st with
      | none => rw [him] at h; exact Option.noConfusion h
      | some sb =>
        obtain ⟨st', b⟩ := sb
        rw [him] at h
        cases b with
        | true => exact ih (idx + 1) st' r h (hQ _ _ _ him hq)
        | false =>
          simp only [Option.some.injEq] at h
          rw [← h]
          exact hQ _ _ (st', false) him hq
    · exact ih (idx + 1) _ r h hq

/-- The imported-files set only grows along `importSourceFile`. -/
theorem importSourceFileMono : ∀ fuel fs path st r,
    importSourceFile fuel fs path st = some r →
    ∀ p, st.importedFiles.contains p = true → r.1.importedFiles.contains p = true := by
  intro fuel
  induction fuel with
  | zero =>
    intro fs path st r h
    simp [importSourceFile] at h
  | succ f ih =>
    intro fs path st r h p hp
    simp only [importSourceFile] at h
    by_cases hc : st.importedFiles.contains path = true
    · rw [if_pos hc] at h
      simp only [Option.some.injEq] at h
      rw [← h]
      exact hp
    · rw [if_neg hc] at h
      cases hlk : List.lookup path fs with
      | none =>
        rw [hlk] at h
        simp only [Option.some.injEq] at h
        rw [← h]
        by_cases hie : st.importedFiles.isEmpty
        · simp only [hie, if_pos]
          exact hp
        · rw [if_neg (by simp [hie])]
          exact hp
      | some lines =>
        rw [hlk] at h
        exact importLinesFPreserve _ (fun l => l.contains p = true)
          (fun path' st' r' h' hq => ih fs path' st' r' h' p hq)
          path 0 lines _ r h (containsAppendOneTrue _ _ _ hp)

/-- The line loop returns a result (never exhausts the import machinery) as
long as the recursive import call does so below the `freshCount` bound. -/
theorem importLinesFSome (impF : String → ImportSt → Option (ImportSt × Bool))
    (fs : FileSys) (bound : Nat)
    (hMono : ∀ path st r, impF path st = some r →
      ∀ p, st.importedFiles.contains p = true → r.1.importedFiles.contains p = true)
    (hA : ∀ path st, freshCount fs st < bound → impF path st ≠ none) :
    ∀ sp idx lines st, freshCount fs st < bound →
      importLinesF impF sp idx lines st ≠ none := by
  intro sp idx lines
  induction lines generalizing idx with
  | nil =>
    intro st hcnt
    simp [importLinesF]
  | cons line rest ih =>
    intro st hcnt
    simp only [importLinesF]
    split
    · cases him : impF ((rightTrim (removeComment line)).drop 7) st with
      | none => exact absurd him (hA _ _ hcnt)
      | some sb =>
        obtain ⟨st', b⟩ := sb
        cases b with
        | true =>
          have hle : freshCount fs st' ≤ freshCount fs st :=
            freshCountMonoOfContains fs st st' (fun p hp => hMono _ _ (st', true) him p hp)
          exact ih (idx + 1) st' (Nat.lt_of_le_of_lt hle hcnt)
        | false => simp
    · exact ih (idx + 1) _ hcnt

/-- With fuel exceeding the number of servable not-yet-imported files,
`importSourceFile` never runs out of fuel: the C++ recursion terminates. -/
theorem importSourceFileAdequate : ∀ fuel fs path st,
    freshCount fs st < fuel → importSourceFile fuel fs path st ≠ none := by
  intro fuel
  induction fuel with
  | zero =>
    intro fs path st h
    exact absurd h (Nat.not_lt_zero _)
  | succ f ih =>
    intro fs path st hcnt
    simp only [importSourceFile]
    by_cases hc : st.importedFiles.contains path = true
    · rw [if_pos hc]
      simp
    · rw [if_neg hc]
      cases hlk : List.lookup path fs with
      | none => simp
      | some lines =>
        have hlt : freshCount fs { st with importedFiles := st.importedFiles ++ [path] } < f := by
          have h1 := freshCountInsertLt fs st path (memKeysOfLookup hlk)
            (Bool.not_eq_true _ ▸ hc)
          omega
        exact importLinesFSome _ fs f
          (fun path' st' r h => importSourceFileMono f fs path' st' r h)
          (fun path' st' hlt' => ih fs path' st' hlt')
          path 0 lines _ hlt

/-- C4: a repeated or circular import of an already-imported path is a no-op
that returns success (contributing no code lines), and with fuel exceeding the
number of servable not-yet-imported files the import expansion always
completes — it terminates on every cyclic import graph (running out of fuel,
the `none` result, models non-termination of the C++ recursion). -/
theorem importSourceFile_once_and_terminating :
    (∀ fuel fs path st, st.importedFiles.contains path = true →
      importSourceFile (fuel + 1) fs path st = some (st, true)) ∧
    (∀ fuel fs path st, freshCount fs st < fuel →
      importSourceFile fuel fs path st ≠ none) := by
  constructor
  · intro fuel fs path st h
    simp only [importSourceFile]
    rw [if_pos h]
  · exact importSourceFileAdequate

/-- Witness for C4 on a concrete two-file cyclic import graph
(`a.dl` imports `b.dl`, which imports `a.dl` back). -/
theorem importSourceFile_once_and_terminating_witness :
    importSourceFile 1 [("a.dl", ["import b.dl"])] "a.dl" ⟨["a.dl"], [], []⟩ =
      some (⟨["a.dl"], [], []⟩, true) ∧
    importSourceFile 3 [("a.dl", ["import b.dl"]), ("b.dl", ["import a.dl", "x"])]
      "a.dl" ⟨[], [], []⟩ ≠ none :=
  ⟨importSourceFile_once_and_terminating.1 0 _ _ _ (by decide),
   importSourceFile_once_and_terminating.2 3 _ _ _ (by decide)⟩

/- ### Section analysis: indentation checks (compiler.cpp lines 98-200,
IndentData.cpp) -/

/-- `IndentData`: the discovered indent unit string and the current level. -/
structure IndentData where
  indentString : String
  indentLevel : Nat
deriving DecidableEq, Repr

/-- `charName` (IndentData.cpp). -/
def charName (c : Char) : String :=
  if c = ' ' then "space"
  else if c = '\t' then "tab"
  else "'" ++ c.toString ++ "'"

/-- The `^(\s*)` leading-whitespace match of compiler.cpp line 119. -/
def leadingWhitespace (s : String) : String :=
  ⟨s.toList.takeWhile Char.isWhitespace⟩

/-- Indent discovery and width check (compiler.cpp lines 121-132): the first
indented line fixes the unit; later lines whose indent width is not a multiple
of the unit width get an Error diagnostic. -/
def indentWidthCheck (data : IndentData) (indentString : String) : IndentData × List Diag :=
  if data.indentString.isEmpty then
    (⟨indentString, if indentString.isEmpty then 0 else 1⟩, [])
  else if indentString.length % data.indentString.length ≠ 0 then
    (data, [⟨.error,
      "Invalid indentation! expected " ++ toString (data.indentString.length * data.indentLevel)
        ++ " " ++ charName (data.indentString.toList.headD ' ') ++ "s, but found "
        ++ toString indentString.length⟩])
  else (data, [])

/-- Indent character check (compiler.cpp lines 133-151): an indent containing
a character other than the unit character gets an Error diagnostic and the
level is left unchanged; otherwise the level becomes width divided by unit
width; an unindented line resets the discovered unit. -/
def indentCharCheck (data : IndentData) (indentString : String) : IndentData × List Diag :=
  if indentString.length ≠ 0 then
    match indentString.toList.findIdx? (fun c => c ≠ data.indentString.toList.headD ' ') with
    | some invalidCharIndex =>
      (data, [⟨.error,
        "Invalid indentation! expected only " ++ charName (data.indentString.toList.headD ' ')
          ++ "s, but found a " ++ charName (indentString.toList.getD invalidCharIndex ' ')⟩])
    | none =>
      (⟨data.indentString, indentString.length / data.indentString.length⟩, [])
  else (⟨"", 0⟩, [])

/-- The level-change check (compiler.cpp lines 153-173): a level increase
without an opening `:` line is the fatal over-indent error; decreases pop
sections (section bookkeeping itself is outside this step). -/
def overIndentStep (oldLevel : Nat) (indentWidth : Nat) (d2 : IndentData) (diags : List Diag) :
    IndentData × List Diag × Bool :=
  if d2.indentLevel ≠ oldLevel ∧ d2.indentLevel > oldLevel then
    (d2, diags ++ [⟨.error,
      "Invalid indentation! expected at max " ++ toString (d2.indentString.length * oldLevel)
        ++ " " ++ charName (d2.indentString.toList.headD ' ') ++ "s, but found "
        ++ toString indentWidth⟩], true)
  else (d2, diags, false)

/-- The per-line indent analysis of `analyzeSections` (compiler.cpp lines
116-173) for a non-empty right-trimmed line: updated `IndentData`, emitted
diagnostics, and whether the stage aborts (the over-indent `return false`). -/
def analyzeLineIndent (data : IndentData) (rightTrimmedText : String) :
    IndentData × List Diag × Bool :=
  overIndentStep data.indentLevel (leadingWhitespace rightTrimmedText).length
    (indentCharCheck (indentWidthCheck data (leadingWhitespace rightTrimmedText)).1
      (leadingWhitespace rightTrimmedText)).1
    ((indentWidthCheck data (leadingWhitespace rightTrimmedText)).2 ++
      (indentCharCheck (indentWidthCheck data (leadingWhitespace rightTrimmedText)).1
        (leadingWhitespace rightTrimmedText)).2)

theorem indentWidthCheck_diags_error (data : IndentData) (s : String) :
    ∀ d ∈ (indentWidthCheck data s).2, d.level = .error := by
  intro d hd
  unfold indentWidthCheck at hd
  split at hd
  · simp at hd
  · split at hd
    · simp at hd
      rw [hd]
    · simp at hd

theorem indentCharCheck_diags_error (data : IndentData) (s : String) :
    ∀ d ∈ (indentCharCheck data s).2, d.level = .error := by
  intro d hd
  unfold indentCharCheck at hd
  split at hd
  · split at hd
    · simp at hd
      rw [hd]
    · simp at hd
  · simp at hd

theorem overIndentStep_first (oldLevel w : Nat) (d2 : IndentData) (diags : List Diag) :
    (overIndentStep oldLevel w d2 diags).1 = d2 := by
  unfold overIndentStep
  split <;> rfl

theorem overIndentStep_fatal (oldLevel w : Nat) (d2 : IndentData) (diags : List Diag)
    (h : (overIndentStep oldLevel w d2 diags).2.2 = true) : d2.indentLevel > oldLevel := by
  unfold overIndentStep at h
  split at h
  · next hc => exact hc.2
  · simp at h

theorem overIndentStep_diags (oldLevel w : Nat) (d2 : IndentData) (diags : List Diag) :
    ∀ d ∈ (overIndentStep oldLevel w d2 diags).2.1,
      d ∈ diags ∨ d.level = .error := by
  intro d hd
  unfold overIndentStep at hd
  split at hd
  · rcases List.mem_append.mp hd with h | h
    · exact Or.inl h
    · simp at h
      exact Or.inr (by rw [h])
  · exact Or.inl hd

theorem overIndentStep_keeps (oldLevel w : Nat) (d2 : IndentData) (diags : List Diag) :
    ∀ d ∈ diags, d ∈ (overIndentStep oldLevel w d2 diags).2.1 := by
  intro d hd
  unfold overIndentStep
  split
  · exact List.mem_append_left _ hd
  · exact hd

/-- C5 counterexample: unit is two spaces at level 1 and the next line is
indented three spaces. The indent width 3 is not a multiple of the unit width
2, yet the single emitted diagnostic has severity Error, not Warning — the
claimed "width mismatch causes a Warning diagnostic" is false on this input. -/
theorem indent_width_mismatch_not_warning :
    (leadingWhitespace "   x").length % ("  " : String).length ≠ 0 ∧
    ((analyzeLineIndent ⟨"  ", 1⟩ "   x").2.1.map Diag.level = [DiagLevel.error]) ∧
    (analyzeLineIndent ⟨"  ", 1⟩ "   x").2.1.filter
      (fun d => d.level == DiagLevel.warning) = [] := by
  refine ⟨by decide, by rfl, by rfl⟩

/-- C5 (amended): in `analyzeSections`, an indent width mismatch and an indent
character mismatch each produce an Error diagnostic (not a Warning for the
width case, as claimed); every diagnostic of this per-line step is an Error;
neither mismatch by itself aborts the stage — the step aborts only via the
separate over-indent rule, i.e. when the line's computed indent level exceeds
the previous level. -/
theorem analyzeLineIndent_mismatch_severities (data : IndentData) (line : String) :
    (∀ d ∈ (analyzeLineIndent data line).2.1, d.level = .error) ∧
    ((analyzeLineIndent data line).2.2 = true →
      (analyzeLineIndent data line).1.indentLevel > data.indentLevel) ∧
    (data.indentString.isEmpty = false →
      (leadingWhitespace line).length % data.indentString.length ≠ 0 →
      (analyzeLineIndent data line).2.1 ≠ []) ∧
    ((leadingWhitespace line).length ≠ 0 →
      ∀ i, (leadingWhitespace line).toList.findIdx?
          (fun c => c ≠ (indentWidthCheck data
            (leadingWhitespace line)).1.indentString.toList.headD ' ') = some i →
      (⟨.error, "Invalid indentation! expected only "
          ++ charName ((indentWidthCheck data
            (leadingWhitespace line)).1.indentString.toList.headD ' ')
          ++ "s, but found a "
          ++ charName ((leadingWhitespace line).toList.getD i ' ')⟩ : Diag) ∈
        (analyzeLineIndent data line).2.1) := by
  refine ⟨?_, ?_, ?_, ?_⟩
  · intro d hd
    rcases overIndentStep_diags _ _ _ _ d hd with h | h
    · rcases List.mem_append.mp h with h2 | h2
      · exact indentWidthCheck_diags_error _ _ d h2
      · exact indentCharCheck_diags_error _ _ d h2
    · exact h
  · intro hfatal
    unfold analyzeLineIndent at hfatal ⊢
    rw [overIndentStep_first]
    exact overIndentStep_fatal _ _ _ _ hfatal
  · intro hne hmod
    have hw : (indentWidthCheck data (leadingWhitespace line)).2 ≠ [] := by
      unfold indentWidthCheck
      rw [if_neg (by simp [hne]), if_pos hmod]
      simp
    unfold analyzeLineIndent overIndentStep
    split
    · simp only [ne_eq, List.append_assoc, List.append_eq_nil]
      intro habs
      exact hw habs.1
    · simp only [ne_eq, List.append_eq_nil]
      intro habs
      exact hw habs.1
  · intro hlen i hfind
    have hch : (indentCharCheck (indentWidthCheck data (leadingWhitespace line)).1
        (leadingWhitespace line)).2 =
        [⟨.error, "Invalid indentation! expected only "
          ++ charName ((indentWidthCheck data
            (leadingWhitespace line)).1.indentString.toList.headD ' ')
          ++ "s, but found a "
          ++ charName ((leadingWhitespace line).toList.getD i ' ')⟩] := by
      unfold indentCharCheck
      rw [if_pos hlen, hfind]
    unfold analyzeLineIndent
    apply overIndentStep_keeps
    apply List.mem_append_right
    rw [hch]
    exact List.mem_singleton_self _

/-- Witness for C5's amended theorem: the two-space unit with a three-space
line emits only Error diagnostics and does not abort. -/
theorem analyzeLineIndent_mismatch_severities_witness :
    ((analyzeLineIndent ⟨"  ", 1⟩ "   x").2.2 = true →
      (analyzeLineIndent ⟨"  ", 1⟩ "   x").1.indentLevel > (1 : Nat)) ∧
    (analyzeLineIndent ⟨"  ", 1⟩ "   x").2.1 ≠ [] ∧
    (⟨.error, "Invalid indentation! expected only spaces, but found a tab"⟩ : Diag) ∈
      (analyzeLineIndent ⟨"  ", 1⟩ " \tx").2.1 :=
  ⟨(analyzeLineIndent_mismatch_severities ⟨"  ", 1⟩ "   x").2.1,
   (analyzeLineIndent_mismatch_severities ⟨"  ", 1⟩ "   x").2.2.1 (by decide) (by decide),
   (analyzeLineIndent_mismatch_severities ⟨"  ", 1⟩ " \tx").2.2.2 (by decide) 1 rfl⟩

/- ### Unresolved-reference counting on the section tree
(src/src/compiler/section/section.cpp lines 465-482,
src/src/compiler/pattern/patternReference.cpp lines 8-12) -/

/-- A section subtree for the unresolved-count bookkeeping: `own` is the
number of unresolved `PatternReference`s the section itself owns (the
abstraction of its `patternReferences` list), `count` is the C++
`unresolvedCount` field (section.h line 49: "count of unresolved pattern
references + unresolved child sections"), and `children` the child sections. -/
inductive SecTree where
  | mk (own : Int) (count : Int) (children : List SecTree)
deriving Repr

def SecTree.own : SecTree → Int
  | .mk o _ _ => o

def SecTree.count : SecTree → Int
  | .mk _ c _ => c

def SecTree.children : SecTree → List SecTree
  | .mk _ _ cs => cs

/-- `Section::addPatternReference` + `Section::incrementUnresolved`
(section.cpp lines 465-475), written as a downward walk along the path to the
target section. The returned flag says whether the increment propagated past
the subtree root to its parent: the C++ recurses into the parent exactly when
the count was zero before the increment. -/
def addRefAux : SecTree → List Nat → Option (SecTree × Bool)
  | .mk own count children, [] => some (.mk (own + 1) (count + 1) children, count == 0)
  | .mk own count children, i :: p =>
    match children.get? i with
    | none => none
    | some c =>
      match addRefAux c p with
      | none => none
      | some (c', prop) =>
        if prop then some (.mk own (count + 1) (children.set i c'), count == 0)
        else some (.mk own count (children.set i c'), false)

/-- `PatternReference::resolve` + `Section::decrementUnresolved`
(patternReference.cpp lines 8-12, section.cpp lines 477-482), as a downward
walk: the C++ recurses into the parent exactly when the count hit zero after
the decrement. -/
def resolveRefAux : SecTree → List Nat → Option (SecTree × Bool)
  | .mk own count children, [] => some (.mk (own - 1) (count - 1) children, count - 1 == 0)
  | .mk own count children, i :: p =>
    match children.get? i with
    | none => none
    | some c =>
      match resolveRefAux c p with
      | none => none
      | some (c', prop) =>
        if prop then some (.mk own (count - 1) (children.set i c'), count - 1 == 0)
        else some (.mk own count (children.set i c'), false)

/-- Register a new pattern reference on the section at `path`. -/
def addPatternReference (t : SecTree) (path : List Nat) : Option SecTree :=
  (addRefAux t path).map (fun r => r.1)

/-- Resolve one pattern reference owned by the section at `path`. -/
def resolveReference (t : SecTree) (path : List Nat) : Option SecTree :=
  (resolveRefAux t path).map (fun r => r.1)

/-- Number of children with nonzero `unresolvedCount`. -/
def countActive (l : List SecTree) : Int :=
  ((l.filter (fun c => c.count != 0)).length : Int)

mutual
/-- The invariant the code actually maintains (section.h line 49): every
section's `unresolvedCount` equals its own unresolved references plus the
number of children with nonzero count, and all quantities are non-negative. -/
def SecInv : SecTree → Prop
  | .mk own count children =>
    0 ≤ own ∧ count = own + countActive children ∧ SecInvList children

def SecInvList : List SecTree → Prop
  | [] => True
  | c :: cs => SecInv c ∧ SecInvList cs
end

mutual
/-- Total number of unresolved references in a subtree. -/
def subtreeOwn : SecTree → Int
  | .mk own _ children => own + subtreeOwnList children

def subtreeOwnList : List SecTree → Int
  | [] => 0
  | c :: cs => subtreeOwn c + subtreeOwnList cs
end

/-- `Section::ownAt`: the `own` field of the section at `path` (model
accessor). -/
def ownAt : SecTree → List Nat → Option Int
  | .mk o _ _, [] => some o
  | .mk _ _ children, i :: p =>
    match children.get? i with
    | none => none
    | some c => ownAt c p

theorem addRefAux_count (t : SecTree) (p : List Nat) (t' : SecTree) (prop : Bool)
    (h : addRefAux t p = some (t', prop)) :
    (prop = (t.count == 0) ∧ t'.count = t.count + 1) ∨
    (prop = false ∧ t'.count = t.count) := by
  cases p with
  | nil =>
    cases t with
    | mk own count children =>
      simp only [addRefAux, Option.some.injEq, Prod.mk.injEq] at h
      obtain ⟨h1, h2⟩ := h
      left
      rw [← h1, ← h2]
      exact ⟨rfl, rfl⟩
  | cons i p =>
    cases t with
    | mk own count children =>
      simp only [addRefAux] at h
      split at h
      · exact Option.noConfusion h
      · split at h
        · exact Option.noConfusion h
        · split at h
          · simp only [Option.some.injEq, Prod.mk.injEq] at h
            obtain ⟨h1, h2⟩ := h
            left
            rw [← h1, ← h2]
            exact ⟨rfl, rfl⟩
          · simp only [Option.some.injEq, Prod.mk.injEq] at h
            obtain ⟨h1, h2⟩ := h
            right
            rw [← h1, ← h2]
            exact ⟨rfl, rfl⟩

theorem resolveRefAux_count (t : SecTree) (p : List Nat) (t' : SecTree) (prop : Bool)
    (h : resolveRefAux t p = some (t', prop)) :
    (prop = (t.count - 1 == 0) ∧ t'.count = t.count - 1) ∨
    (prop = false ∧ t'.count = t.count) := by
  cases p with
  | nil =>
    cases t with
    | mk own count children =>
      simp only [resolveRefAux, Option.some.injEq, Prod.mk.injEq] at h
      obtain ⟨h1, h2⟩ := h
      left
      rw [← h1, ← h2]
      exact ⟨rfl, rfl⟩
  | cons i p =>
    cases t with
    | mk own count children =>
      simp only [resolveRefAux] at h
      split at h
      · exact Option.noConfusion h
      · split at h
        · exact Option.noConfusion h
        · split at h
          · simp only [Option.some.injEq, Prod.mk.injEq] at h
            obtain ⟨h1, h2⟩ := h
            left
            rw [← h1, ← h2]
            exact ⟨rfl, rfl⟩
          · simp only [Option.some.injEq, Prod.mk.injEq] at h
            obtain ⟨h1, h2⟩ := h
            right
            rw [← h1, ← h2]
            exact ⟨rfl, rfl⟩

theorem countActive_cons (x : SecTree) (xs : List SecTree) :
    countActive (x :: xs) =
      (if (x.count != 0) = true then (1 : Int) else 0) + countActive xs := by
  by_cases hx : (x.count != 0) = true
  · rw [if_pos hx]
    unfold countActive
    rw [List.filter_cons, if_pos hx]
    simp only [List.length_cons]
    push_cast
    ring
  · rw [if_neg hx]
    unfold countActive
    rw [List.filter_cons, if_neg hx]
    simp

theorem countActive_nonneg (l : List SecTree) : 0 ≤ countActive l := by
  unfold countActive
  exact Int.natCast_nonneg _

theorem SecInv_count_nonneg (t : SecTree) (h : SecInv t) : 0 ≤ t.count := by
  cases t with
  | mk o c ch =>
    simp only [SecInv] at h
    obtain ⟨h1, h2, _⟩ := h
    have := countActive_nonneg ch
    simp only [SecTree.count]
    linarith

theorem countActive_set (l : List SecTree) (i : Nat) (c c' : SecTree)
    (hget : l.get? i = some c) :
    countActive (l.set i c') + (if (c.count != 0) = true then (1 : Int) else 0) =
      countActive l + (if (c'.count != 0) = true then (1 : Int) else 0) := by
  induction l generalizing i with
  | nil => simp at hget
  | cons a t ih =>
    cases i with
    | zero =>
      simp only [List.get?, Option.some.injEq] at hget
      rw [← hget]
      simp only [List.set]
      rw [countActive_cons, countActive_cons]
      ring
    | succ i =>
      simp only [List.get?] at hget
      simp only [List.set]
      rw [countActive_cons, countActive_cons]
      have := ih i hget
      linarith

theorem countActive_pos_of_get (l : List SecTree) (i : Nat) (c : SecTree)
    (hget : l.get? i = some c) (hc : c.count ≠ 0) : 1 ≤ countActive l := by
  induction l generalizing i with
  | nil => simp at hget
  | cons a t ih =>
    cases i with
    | zero =>
      simp only [List.get?, Option.some.injEq] at hget
      rw [countActive_cons]
      have h1 : (if (a.count != 0) = true then (1 : Int) else 0) = 1 := by
        rw [hget]
        simp [hc]
      have := countActive_nonneg t
      linarith
    | succ i =>
      simp only [List.get?] at hget
      rw [countActive_cons]
      have := ih i hget
      have h0 : (0 : Int) ≤ if (a.count != 0) = true then (1 : Int) else 0 := by
        split <;> norm_num
      linarith

theorem SecInvList_get (l : List SecTree) (i : Nat) (c : SecTree)
    (h : SecInvList l) (hget : l.get? i = some c) : SecInv c := by
  induction l generalizing i with
  | nil => simp at hget
  | cons a t ih =>
    simp only [SecInvList] at h
    cases i with
    | zero =>
      simp only [List.get?, Option.some.injEq] at hget
      rw [← hget]
      exact h.1
    | succ i =>
      simp only [List.get?] at hget
      exact ih i h.2 hget

theorem SecInvList_set (l : List SecTree) (i : Nat) (c' : SecTree)
    (h : SecInvList l) (hc' : SecInv c') : SecInvList (l.set i c') := by
  induction l generalizing i with
  | nil => simpa using h
  | cons a t ih =>
    simp only [SecInvList] at h
    cases i with
    | zero =>
      simp only [List.set, SecInvList]
      exact ⟨hc', h.2⟩
    | succ i =>
      simp only [List.set, SecInvList]
      exact ⟨h.1, ih i h.2⟩

theorem countPos_of_ownAt (p : List Nat) : ∀ (t : SecTree) (o : Int), SecInv t →
    ownAt t p = some o → 1 ≤ o → 1 ≤ t.count := by
  induction p with
  | nil =>
    intro t o hinv h ho
    cases t with
    | mk own count children =>
      simp only [ownAt, Option.some.injEq] at h
      simp only [SecInv] at hinv
      obtain ⟨h1, h2, _⟩ := hinv
      have := countActive_nonneg children
      simp only [SecTree.count]
      rw [← h] at ho
      linarith
  | cons i p ih =>
    intro t o hinv h ho
    cases t with
    | mk own count children =>
      simp only [ownAt] at h
      split at h
      · exact Option.noConfusion h
      · rename_i c hget
        simp only [SecInv] at hinv
        obtain ⟨h1, h2, hl⟩ := hinv
        have hcInv : SecInv c := SecInvList_get children i c hl hget
        have hcpos : 1 ≤ c.count := ih c o hcInv h ho
        have hact : 1 ≤ countActive children :=
          countActive_pos_of_get children i c hget (by omega)
        simp only [SecTree.count]
        linarith

theorem addRefAux_inv (p : List Nat) : ∀ (t t' : SecTree) (prop : Bool),
    addRefAux t p = some (t', prop) → SecInv t → SecInv t' := by
  induction p with
  | nil =>
    intro t t' prop h hinv
    cases t with
    | mk own count children =>
      simp only [addRefAux, Option.some.injEq, Prod.mk.injEq] at h
      obtain ⟨h1, _⟩ := h
      rw [← h1]
      simp only [SecInv] at hinv ⊢
      obtain ⟨ho, hc, hl⟩ := hinv
      exact ⟨by linarith, by rw [hc]; ring, hl⟩
  | cons i p ih =>
    intro t t' prop h hinv
    cases t with
    | mk own count children =>
      simp only [addRefAux] at h
      split at h
      · exact Option.noConfusion h
      · rename_i c hget
        split at h
        · exact Option.noConfusion h
        · rename_i c' cprop hrec
          simp only [SecInv] at hinv
          obtain ⟨ho, hc, hl⟩ := hinv
          have hcInv : SecInv c := SecInvList_get children i c hl hget
          have hc'Inv : SecInv c' := ih c c' cprop hrec hcInv
          have hcset := countActive_set children i c c' hget
          split at h
          · rename_i hcp
            simp only [Option.some.injEq, Prod.mk.injEq] at h
            obtain ⟨h1, _⟩ := h
            rw [← h1]
            simp only [SecInv]
            refine ⟨ho, ?_, SecInvList_set children i c' hl hc'Inv⟩
            rcases addRefAux_count c p c' cprop hrec with ⟨hp1, hp2⟩ | ⟨hp1, hp2⟩
            · have hc0 : c.count = 0 := by
                rw [hcp] at hp1
                exact beq_iff_eq.mp hp1.symm
              have hic : (if (c.count != 0) = true then (1 : Int) else 0) = 0 := by
                simp [hc0]
              have hic' : (if (c'.count != 0) = true then (1 : Int) else 0) = 1 := by
                rw [hp2, hc0]
                norm_num
              rw [hic, hic'] at hcset
              linarith
            · rw [hcp] at hp1
              exact Bool.noConfusion hp1
          · rename_i hcp
            simp only [Option.some.injEq, Prod.mk.injEq] at h
            obtain ⟨h1, _⟩ := h
            rw [← h1]
            simp only [SecInv]
            refine ⟨ho, ?_, SecInvList_set children i c' hl hc'Inv⟩
            have hcnn : 0 ≤ c.count := SecInv_count_nonneg c hcInv
            rcases addRefAux_count c p c' cprop hrec with ⟨hp1, hp2⟩ | ⟨hp1, hp2⟩
            · have hcne : c.count ≠ 0 := by
                intro habs
                rw [habs] at hp1
                simp at hp1
                exact hcp hp1
              have hic : (if (c.count != 0) = true then (1 : Int) else 0) = 1 := by
                simp [hcne]
              have hic' : (if (c'.count != 0) = true then (1 : Int) else 0) = 1 := by
                have : c'.count ≠ 0 := by omega
                simp [this]
              rw [hic, hic'] at hcset
              linarith
            · have hic : (if (c'.count != 0) = true then (1 : Int) else 0) =
                  (if (c.count != 0) = true then (1 : Int) else 0) := by
                rw [hp2]
              rw [hic] at hcset
              linarith

theorem resolveRefAux_inv (p : List Nat) : ∀ (t t' : SecTree) (prop : Bool) (o : Int),
    resolveRefAux t p = some (t', prop) → ownAt t p = some o → 1 ≤ o →
    SecInv t → SecInv t' := by
  induction p with
  | nil =>
    intro t t' prop o h hown ho hinv
    cases t with
    | mk own count children =>
      simp only [resolveRefAux, Option.some.injEq, Prod.mk.injEq] at h
      simp only [ownAt, Option.some.injEq] at hown
      obtain ⟨h1, _⟩ := h
      rw [← h1]
      simp only [SecInv] at hinv ⊢
      obtain ⟨hogood, hc, hl⟩ := hinv
      rw [← hown] at ho
      exact ⟨by linarith, by rw [hc]; ring, hl⟩
  | cons i p ih =>
    intro t t' prop o h hown ho hinv
    cases t with
    | mk own count children =>
      simp only [resolveRefAux] at h
      simp only [ownAt] at hown
      split at h
      · exact Option.noConfusion h
      · rename_i c hget
        rw [hget] at hown
        have hown2 : ownAt c p = some o := hown
        split at h
        · exact Option.noConfusion h
        · rename_i c' cprop hrec
          simp only [SecInv] at hinv
          obtain ⟨hogood, hc, hl⟩ := hinv
          have hcInv : SecInv c := SecInvList_get children i c hl hget
          have hc'Inv : SecInv c' := ih c c' cprop o hrec hown2 ho hcInv
          have hcset := countActive_set children i c c' hget
          have hcpos : 1 ≤ c.count := countPos_of_ownAt p c o hcInv hown2 ho
          split at h
          · rename_i hcp
            simp only [Option.some.injEq, Prod.mk.injEq] at h
            obtain ⟨h1, _⟩ := h
            rw [← h1]
            simp only [SecInv]
            refine ⟨hogood, ?_, SecInvList_set children i c' hl hc'Inv⟩
            rcases resolveRefAux_count c p c' cprop hrec with ⟨hp1, hp2⟩ | ⟨hp1, hp2⟩
            · have hc1 : c.count - 1 = 0 := by
                rw [hcp] at hp1
                exact beq_iff_eq.mp hp1.symm
              have hic : (if (c.count != 0) = true then (1 : Int) else 0) = 1 := by
                have : c.count ≠ 0 := by omega
                simp [this]
              have hic' : (if (c'.count != 0) = true then (1 : Int) else 0) = 0 := by
                have : c'.count = 0 := by omega
                simp [this]
              rw [hic, hic'] at hcset
              linarith
            · rw [hcp] at hp1
              exact Bool.noConfusion hp1
          · rename_i hcp
            simp only [Option.some.injEq, Prod.mk.injEq] at h
            obtain ⟨h1, _⟩ := h
            rw [← h1]
            simp only [SecInv]
            refine ⟨hogood, ?_, SecInvList_set children i c' hl hc'Inv⟩
            rcases resolveRefAux_count c p c' cprop hrec with ⟨hp1, hp2⟩ | ⟨hp1, hp2⟩
            · have hcne : c.count - 1 ≠ 0 := by
                intro habs
                rw [habs] at hp1
                simp at hp1
                exact hcp hp1
              have hic : (if (c.count != 0) = true then (1 : Int) else 0) = 1 := by
                have : c.count ≠ 0 := by omega
                simp [this]
              have hic' : (if (c'.count != 0) = true then (1 : Int) else 0) = 1 := by
                have : c'.count ≠ 0 := by omega
                simp [this]
              rw [hic, hic'] at hcset
              linarith
            · have hic : (if (c'.count != 0) = true then (1 : Int) else 0) =
                  (if (c.count != 0) = true then (1 : Int) else 0) := by
                rw [hp2]
              rw [hic] at hcset
              linarith

mutual
theorem subtreeOwn_nonneg (t : SecTree) (h : SecInv t) : 0 ≤ subtreeOwn t := by
  cases t with
  | mk own count children =>
    simp only [SecInv] at h
    obtain ⟨h1, _, hl⟩ := h
    have := subtreeOwnList_nonneg children hl
    simp only [subtreeOwn]
    linarith

theorem subtreeOwnList_nonneg (l : List SecTree) (h : SecInvList l) :
    0 ≤ subtreeOwnList l := by
  cases l with
  | nil => simp [subtreeOwnList]
  | cons c cs =>
    simp only [SecInvList] at h
    have h1 := subtreeOwn_nonneg c h.1
    have h2 := subtreeOwnList_nonneg cs h.2
    simp only [subtreeOwnList]
    linarith
end

mutual
theorem secCountZeroIff (t : SecTree) (h : SecInv t) :
    t.count = 0 ↔ subtreeOwn t = 0 := by
  cases t with
  | mk own count children =>
    simp only [SecInv] at h
    obtain ⟨h1, h2, hl⟩ := h
    have hact := countActive_nonneg children
    have hsub := subtreeOwnList_nonneg children hl
    have hiff := secCountZeroIffList children hl
    simp only [SecTree.count, subtreeOwn]
    constructor
    · intro hz
      have hown0 : own = 0 := by linarith
      have hact0 : countActive children = 0 := by linarith
      have := hiff.mp hact0
      linarith
    · intro hz
      have hown0 : own = 0 := by linarith
      have hsub0 : subtreeOwnList children = 0 := by linarith
      have := hiff.mpr hsub0
      linarith

theorem secCountZeroIffList (l : List SecTree) (h : SecInvList l) :
    countActive l = 0 ↔ subtreeOwnList l = 0 := by
  cases l with
  | nil => simp [countActive, subtreeOwnList]
  | cons c cs =>
    simp only [SecInvList] at h
    have hiffc := secCountZeroIff c h.1
    have hiffs := secCountZeroIffList cs h.2
    have hcn := SecInv_count_nonneg c h.1
    have hsn := subtreeOwn_nonneg c h.1
    have hacn := countActive_nonneg cs
    have hssn := subtreeOwnList_nonneg cs h.2
    rw [countActive_cons]
    simp only [subtreeOwnList]
    by_cases hz : c.count = 0
    · have hind : (if (c.count != 0) = true then (1 : Int) else 0) = 0 := by simp [hz]
      have hsz := hiffc.mp hz
      rw [hind, hsz]
      constructor
      · intro hh
        rw [hiffs.mp (by linarith)]
        ring
      · intro hh
        rw [hiffs.mpr (by linarith)]
        ring
    · have hind : (if (c.count != 0) = true then (1 : Int) else 0) = 1 := by simp [hz]
      have hsz : subtreeOwn c ≠ 0 := fun habs => hz (hiffc.mpr habs)
      rw [hind]
      constructor
      · intro hh
        linarith
      · intro hh
        have : subtreeOwn c = 0 := by linarith
        exact absurd this hsz
end

/-- C8 counterexample: a root section with one child; two pattern references
are registered on the child. The child's `unresolvedCount` becomes 2 but the
root's becomes only 1 (the second increment does not propagate because the
child's count was already nonzero), so the root's `unresolvedCount` (1) is not
the sum of unresolved references in its subtree (2) — the claimed invariant is
false for this reachable state. -/
theorem unresolvedCount_not_subtree_sum :
    (addPatternReference (SecTree.mk 0 0 [SecTree.mk 0 0 []]) [0]).bind
        (fun t => addPatternReference t [0]) =
      some (SecTree.mk 0 1 [SecTree.mk 2 2 []]) ∧
    SecInv (SecTree.mk 0 1 [SecTree.mk 2 2 []]) ∧
    SecTree.count (SecTree.mk 0 1 [SecTree.mk 2 2 []]) ≠
      subtreeOwn (SecTree.mk 0 1 [SecTree.mk 2 2 []]) := by
  refine ⟨rfl, ?_, by decide⟩
  simp only [SecInv, SecInvList, countActive]
  refine ⟨by decide, by decide, ⟨by decide, by decide, trivial⟩, trivial⟩

/-- C8 (amended): what the code maintains is the invariant of section.h line
49 — each `unresolvedCount` equals the section's own unresolved references
plus the number of children with nonzero count (`SecInv`), preserved by
`addPatternReference` and by resolving a reference; under that invariant a
count is zero exactly when the subtree holds no unresolved reference; and the
count change propagates to the parent exactly on a transition from zero (for
increments) or to zero (for decrements). -/
theorem unresolvedCount_invariant :
    (∀ t p t', SecInv t → addPatternReference t p = some t' → SecInv t') ∧
    (∀ t p t' o, SecInv t → ownAt t p = some o → 1 ≤ o →
      resolveReference t p = some t' → SecInv t') ∧
    (∀ t, SecInv t → (t.count = 0 ↔ subtreeOwn t = 0)) ∧
    (∀ t p t' prop, addRefAux t p = some (t', prop) →
      (prop = (t.count == 0) ∧ t'.count = t.count + 1) ∨
      (prop = false ∧ t'.count = t.count)) ∧
    (∀ t p t' prop, resolveRefAux t p = some (t', prop) →
      (prop = (t.count - 1 == 0) ∧ t'.count = t.count - 1) ∨
      (prop = false ∧ t'.count = t.count)) := by
  refine ⟨?_, ?_, secCountZeroIff, fun t p => addRefAux_count t p,
    fun t p => resolveRefAux_count t p⟩
  · intro t p t' hinv h
    unfold addPatternReference at h
    cases hrec : addRefAux t p with
    | none => rw [hrec] at h; exact Option.noConfusion h
    | some r =>
      obtain ⟨t1, b1⟩ := r
      rw [hrec] at h
      simp only [Option.map, Option.some.injEq] at h
      rw [← h]
      exact addRefAux_inv p t t1 b1 hrec hinv
  · intro t p t' o hinv hown ho h
    unfold resolveReference at h
    cases hrec : resolveRefAux t p with
    | none => rw [hrec] at h; exact Option.noConfusion h
    | some r =>
      obtain ⟨t1, b1⟩ := r
      rw [hrec] at h
      simp only [Option.map, Option.some.injEq] at h
      rw [← h]
      exact resolveRefAux_inv p t t1 b1 o hrec hown ho hinv

/-- Witness for C8's amended theorem at a concrete two-section tree. -/
theorem unresolvedCount_invariant_witness :
    SecInv (SecTree.mk 0 1 [SecTree.mk 1 1 []]) ∧
    ((SecTree.mk 0 1 [SecTree.mk 1 1 []]).count = 0 ↔
      subtreeOwn (SecTree.mk 0 1 [SecTree.mk 1 1 []]) = 0) := by
  have hinv : SecInv (SecTree.mk 0 0 [SecTree.mk 0 0 []]) := by
    simp only [SecInv, SecInvList, countActive]
    refine ⟨by decide, by decide, ⟨by decide, by decide, trivial⟩, trivial⟩
  have h1 : SecInv (SecTree.mk 0 1 [SecTree.mk 1 1 []]) :=
    unresolvedCount_invariant.1 (SecTree.mk 0 0 [SecTree.mk 0 0 []]) [0]
      (SecTree.mk 0 1 [SecTree.mk 1 1 []]) hinv rfl
  exact ⟨h1, unresolvedCount_invariant.2.2.1 _ h1⟩

/- ### Pattern elements
(src/src/compiler/pattern/pattern_tree/patternElement.h / .cpp) -/

/-- `PatternElement::Type` (patternElement.h; the `.cpp` files additionally use
the `Word` alternative for `{word:name}` captures). -/
inductive PElemKind where
  | other
  | variableLike
  | var
  | word
  | choice
deriving DecidableEq, Repr

/-- `struct PatternElement`: tag, text (the capture name for `word`), start
position, and alternatives for `choice`. -/
inductive PElem where
  | other (text : String) (startPos : Nat)
  | variableLike (text : String) (startPos : Nat)
  | var (text : String) (startPos : Nat)
  | word (name : String) (startPos : Nat)
  | choice (startPos : Nat) (alternatives : List (List PElem))
deriving Repr

def PElem.kind : PElem → PElemKind
  | .other _ _ => .other
  | .variableLike _ _ => .variableLike
  | .var _ _ => .var
  | .word _ _ => .word
  | .choice _ _ => .choice

def PElem.text : PElem → String
  | .other t _ => t
  | .variableLike t _ => t
  | .var t _ => t
  | .word t _ => t
  | .choice _ _ => ""

/-- The reserved argument character (transformedPattern.h: the BEL character,
`U+0007`). -/
def argumentChar : Char := Char.ofNat 7

/-- The `\w` character class of the run classifier (patternElement.cpp line
19). -/
def isWordChar (c : Char) : Bool := c.isAlphanum || c = '_'

/-- Per-character classification of `getPatternElements` (patternElement.cpp
lines 18-20). -/
def charKind (c : Char) : PElemKind :=
  if c = argumentChar then .var
  else if isWordChar c then .variableLike
  else .other

def mkRunElem (k : PElemKind) (text : String) (pos : Nat) : PElem :=
  match k with
  | .other => .other text pos
  | .variableLike => .variableLike text pos
  | .var => .var text pos
  | .word => .word text pos
  | .choice => .choice pos []

/-- The run accumulator of `getPatternElements` (patternElement.cpp lines
13-33): consecutive characters of the same class are merged into one element
whose `startPos` is the run start. -/
def getPatternElementsAux : List Char → Nat → PElemKind → List Char → Nat → List PElem
  | [], _, curK, curRun, curStart => [mkRunElem curK ⟨curRun.reverse⟩ curStart]
  | c :: cs, i, curK, curRun, curStart =>
    let k := charKind c
    if k = curK then getPatternElementsAux cs (i + 1) curK (c :: curRun) curStart
    else mkRunElem curK ⟨curRun.reverse⟩ curStart :: getPatternElementsAux cs (i + 1) k [c] i

/-- `getPatternElements` (patternElement.cpp lines 7-34). -/
def getPatternElements (s : String) : List PElem :=
  match s.toList with
  | [] => []
  | c :: cs => getPatternElementsAux cs 1 (charKind c) [c] 0

/-- Shift the recorded start positions of a run of plain elements
(`elem.startPos += pos + offset`, patternElement.cpp lines 49-50 and 58-59). -/
def shiftElems (es : List PElem) (delta : Nat) : List PElem :=
  es.map fun e =>
    match e with
    | .other t p => .other t (p + delta)
    | .variableLike t p => .variableLike t (p + delta)
    | .var t p => .var t (p + delta)
    | .word t p => .word t (p + delta)
    | .choice p alts => .choice (p + delta) alts

/-- First index at or after `pos` whose character satisfies `p`. -/
def findFrom (cs : List Char) (pos : Nat) (p : Char → Bool) : Option Nat :=
  match (cs.drop pos).findIdx? p with
  | none => none
  | some j => some (pos + j)

/-- The matching-close-bracket scan of patternElement.cpp lines 68-76: walk
from after the open bracket keeping a depth counter for the same bracket
kind; returns the index just past the closing bracket and the final depth
(nonzero depth means the bracket is unmatched — the C++ asserts). -/
def scanCloseAux (openB closeB : Char) : List Char → Nat → Nat → Nat × Nat
  | [], i, depth => (i, depth)
  | c :: cs, i, depth =>
    if depth = 0 then (i, depth)
    else
      let depth' := if c = openB then depth + 1 else if c = closeB then depth - 1 else depth
      scanCloseAux openB closeB cs (i + 1) depth'

/-- The top-level `|` split of a choice's content (patternElement.cpp lines
96-110); only square brackets adjust the nesting depth. -/
def splitAlternativesAux : List Char → Nat → List Char → List (List Char) → List (List Char)
  | [], _, cur, acc => acc ++ [cur.reverse]
  | c :: cs, depth, cur, acc =>
    if c = '[' then splitAlternativesAux cs (depth + 1) (c :: cur) acc
    else if c = ']' then splitAlternativesAux cs (depth - 1) (c :: cur) acc
    else if c = '|' ∧ depth = 0 then splitAlternativesAux cs depth [] (acc ++ [cur.reverse])
    else splitAlternativesAux cs depth (c :: cur) acc

def splitAlternatives (content : List Char) : List (List Char) :=
  splitAlternativesAux content 0 [] []

/-- The empty-alternative space absorption of patternElement.cpp lines
119-136: if some alternative is empty and the character right after the `]`
is a space, the space is appended as a single-space literal to every
non-empty alternative and is consumed from the outer sequence (the returned
flag). -/
def buildChoice (choicePos : Nat) (alts : List (List PElem)) (nextIsSpace : Bool)
    (spacePos : Nat) : PElem × Bool :=
  let hasEmptyAlternative := alts.any List.isEmpty
  if hasEmptyAlternative && nextIsSpace then
    (.choice choicePos
      (alts.map fun alt => if alt.isEmpty then alt else alt ++ [.other " " spacePos]), true)
  else (.choice choicePos alts, false)

mutual
/-- The scanning loop of `parsePatternElements` (patternElement.cpp lines
36-145) over the whole character list with an explicit position; `none`
models the C++ assertion failures (unmatched bracket, malformed capture) and
fuel exhaustion (fuel is structural so the definition stays executable; the
wrapper passes ample fuel). -/
def parseLoopF : Nat → List Char → Nat → Nat → Option (List PElem)
  | 0, _, _, _ => none
  | fuel + 1, cs, pos, offset =>
    match findFrom cs pos (fun c => c == '[' || c == '{') with
    | none => some (shiftElems (getPatternElements ⟨cs.drop pos⟩) (pos + offset))
    | some bracketStart =>
      let plainBefore :=
        if pos < bracketStart then
          shiftElems (getPatternElements ⟨(cs.drop pos).take (bracketStart - pos)⟩)
            (pos + offset)
        else []
      let isCurly := cs.getD bracketStart ' ' = '{'
      let openB := if isCurly then '{' else '['
      let closeB := if isCurly then '}' else ']'
      let scanRes := scanCloseAux openB closeB (cs.drop (bracketStart + 1)) (bracketStart + 1) 1
      if scanRes.2 ≠ 0 then none
      else
        let i := scanRes.1
        let content := (cs.drop (bracketStart + 1)).take (i - bracketStart - 2)
        if isCurly then
          match content.findIdx? (fun c => c == ':') with
          | none => none
          | some colonPos =>
            if (⟨content.take colonPos⟩ : String) = "word" then
              match parseLoopF fuel cs i offset with
              | none => none
              | some rest =>
                some (plainBefore ++
                  [.word ⟨content.drop (colonPos + 1)⟩ (bracketStart + offset)] ++ rest)
            else none
        else
          match parsePartsF fuel (splitAlternatives content) (bracketStart + 1 + offset) with
          | none => none
          | some alts =>
            let nextIsSpace := decide (i < cs.length) && (cs.getD i ' ' == ' ')
            let built := buildChoice (bracketStart + offset) alts nextIsSpace (i + offset)
            match parseLoopF fuel cs (if built.2 then i + 1 else i) offset with
            | none => none
            | some rest => some (plainBefore ++ [built.1] ++ rest)

/-- Recursive parsing of a choice's alternatives (patternElement.cpp lines
113-118), tracking `altOffset`. -/
def parsePartsF : Nat → List (List Char) → Nat → Option (List (List PElem))
  | 0, _, _ => none
  | _ + 1, [], _ => some []
  | fuel + 1, part :: more, altOffset =>
    match parseLoopF fuel part 0 altOffset with
    | none => none
    | some alt =>
      match parsePartsF fuel more (altOffset + part.length + 1) with
      | none => none
      | some alts => some (alt :: alts)
end

/-- `parsePatternElements` (patternElement.cpp lines 36-145). -/
def parsePatternElements (s : String) (offset : Nat := 0) : Option (List PElem) :=
  parseLoopF (2 * s.length + 2) s.toList 0 offset

/- ### The pattern trie
(src/src/compiler/pattern/pattern_tree/patternTreeNode.cpp) -/

/-- `PatternTreeNode`: constructor tag and text, literal children keyed by
text, the single shared variable (`argumentChild`) edge, per-definition
parameter names, and the single `matchingDefinition` slot assigned to end
nodes. Nodes live in an arena; ids are indices. -/
structure TrieNode where
  kind : PElemKind
  text : String
  literalChildren : List (String × Nat)
  argumentChild : Option Nat
  parameterNames : List (Nat × String)
  matchingDefinition : Option Nat
deriving DecidableEq, Repr

def defaultNode : TrieNode := ⟨.other, "", [], none, [], none⟩

/-- A pattern tree: arena of nodes, the root at index 0 (compiler.cpp line
420 allocates one `PatternTreeNode(Other, "")` root per section type). -/
structure Trie where
  nodes : List TrieNode
deriving DecidableEq, Repr

def emptyTrie : Trie := ⟨[defaultNode]⟩

def updateNode (t : Trie) (i : Nat) (f : TrieNode → TrieNode) : Trie :=
  ⟨t.nodes.set i (f (t.nodes.getD i defaultNode))⟩

/-- `parameterNames[definition] = name` (unordered_map assignment). -/
def setParam : List (Nat × String) → Nat → String → List (Nat × String)
  | [], k, v => [(k, v)]
  | (k', v') :: rest, k, v =>
    if k' = k then (k, v) :: rest else (k', v') :: setParam rest k v

/-- `literalChildren[text] = node` (unordered_map assignment). -/
def setAssocStr : List (String × Nat) → String → Nat → List (String × Nat)
  | [], k, v => [(k, v)]
  | (k', v') :: rest, k, v =>
    if k' = k then (k, v) :: rest else (k', v') :: setAssocStr rest k v

/-- `addSharedChild` (patternTreeNode.cpp lines 6-45): link all parents to a
child for the element, reusing an existing child per parent and sharing one
newly created node among the parents that lack one; parameter names are
recorded on variable children; the returned list is the deduplicated child
set in first-seen order. -/
def addSharedChildLoop (defId : Nat) (isVar : Bool) (ekind : PElemKind) (etext : String) :
    List Nat → Trie → Option Nat → List Nat → Trie × List Nat
  | [], t, _, children => (t, children)
  | parent :: rest, t, sharedNew, children =>
    let nd := t.nodes.getD parent defaultNode
    let childO : Option Nat :=
      if isVar then nd.argumentChild else List.lookup etext nd.literalChildren
    match childO with
    | some child =>
      let t' :=
        if isVar then
          updateNode t child (fun c =>
            { c with parameterNames := setParam c.parameterNames defId etext })
        else t
      let children' := if children.contains child then children else children ++ [child]
      addSharedChildLoop defId isVar ekind etext rest t' sharedNew children'
    | none =>
      let alloc : Trie × Nat :=
        match sharedNew with
        | some nid => (t, nid)
        | none => (⟨t.nodes ++ [⟨ekind, etext, [], none, [], none⟩]⟩, t.nodes.length)
      let t2 :=
        if isVar then
          updateNode
            (updateNode alloc.1 parent (fun p => { p with argumentChild := some alloc.2 }))
            alloc.2 (fun c => { c with parameterNames := setParam c.parameterNames defId etext })
        else
          updateNode alloc.1 parent (fun p =>
            { p with literalChildren := setAssocStr p.literalChildren etext alloc.2 })
      let children' := if children.contains alloc.2 then children else children ++ [alloc.2]
      addSharedChildLoop defId isVar ekind etext rest t2 (some alloc.2) children'

/-- Order-preserving deduplication of converged branch endpoints
(patternTreeNode.cpp lines 59-65). -/
def dedupNodes (l : List Nat) : List Nat :=
  l.foldl (fun acc n => if acc.contains n then acc else acc ++ [n]) []

mutual
/-- `addElementSequence` (patternTreeNode.cpp lines 49-71): walk the elements
through the tree, branching at Choice elements and converging the branches;
fuel is structural for executability (the wrappers pass ample fuel). -/
def addElementSequenceF : Nat → Trie → List Nat → List PElem → Nat → Option (Trie × List Nat)
  | 0, _, _, _, _ => none
  | _ + 1, t, currentNodes, [], _ => some (t, currentNodes)
  | fuel + 1, t, currentNodes, elem :: rest, defId =>
    match elem with
    | .choice _ alts =>
      match addAlternativesF fuel t currentNodes alts defId with
      | none => none
      | some r => addElementSequenceF fuel r.1 (dedupNodes r.2) rest defId
    | e =>
      let r := addSharedChildLoop defId (e.kind == .var) e.kind e.text currentNodes t none []
      addElementSequenceF fuel r.1 r.2 rest defId

def addAlternativesF : Nat → Trie → List Nat → List (List PElem) → Nat → Option (Trie × List Nat)
  | 0, _, _, _, _ => none
  | _ + 1, t, _, [], _ => some (t, [])
  | fuel + 1, t, currentNodes, alt :: alts, defId =>
    match addElementSequenceF fuel t currentNodes alt defId with
    | none => none
    | some r =>
      match addAlternativesF fuel r.1 currentNodes alts defId with
      | none => none
      | some r2 => some (r2.1, r.2 ++ r2.2)
end

mutual
/-- Structural weight of an element, bounding the recursion depth of the trie
insertion walk. -/
def pelemWeight : PElem → Nat
  | .choice _ alts => 1 + pelemAltsWeight alts
  | _ => 1

def pelemAltsWeight : List (List PElem) → Nat
  | [] => 0
  | alt :: alts => 1 + pelemListWeight alt + pelemAltsWeight alts

def pelemListWeight : List PElem → Nat
  | [] => 0
  | e :: es => 1 + pelemWeight e + pelemListWeight es
end

/-- `PatternTreeNode::addPatternPart` (patternTreeNode.cpp lines 73-79): walk
the element sequence from the root and assign `matchingDefinition` on every
endpoint — the single slot is overwritten if another definition already ended
there. -/
def addPatternPart (t : Trie) (elements : List PElem) (defId : Nat) : Option Trie :=
  match addElementSequenceF (pelemListWeight elements + 1) t [0] elements defId with
  | none => none
  | some r =>
    some (r.2.foldl
      (fun acc n => updateNode acc n (fun nd => { nd with matchingDefinition := some defId })) r.1)

/- ### Pattern resolution (src/src/compiler/compiler.cpp lines 400-526,
src/src/compiler/section/sectionType.h) -/

/-- `SectionType` (sectionType.h), in declaration order — the order indexes
the `patternTrees` array. -/
inductive SectionTy where
  | custom
  | sectionTy
  | expression
  | effect
  | classTy
  | patternTy
  | execute
  | get
  | set
  | replacement
  | members
deriving DecidableEq, Repr

/-- `(size_t)type` — the numeric value of the enum. -/
def sectionTyIdx : SectionTy → Nat
  | .custom => 0
  | .sectionTy => 1
  | .expression => 2
  | .effect => 3
  | .classTy => 4
  | .patternTy => 5
  | .execute => 6
  | .get => 7
  | .set => 8
  | .replacement => 9
  | .members => 10

/-- The tree a section's definitions are inserted into (compiler.cpp lines
447 and 459): Class definitions share the Expression tree. -/
def treeIdx (ty : SectionTy) : Nat :=
  sectionTyIdx (if ty = .classTy then .expression else ty)

/-- A `PatternDefinition` during resolution: identity, parsed elements,
resolved flag. -/
structure DefnR where
  id : Nat
  patternElements : List PElem
  resolved : Bool
deriving Repr

/-- A `Section` as the resolver sees it (section.h): kind, definitions,
`variableLikeCounts`, `unresolvedCount`, `patternDefinitionsResolved`. -/
structure SectionR where
  type : SectionTy
  patternDefinitions : List DefnR
  variableLikeCounts : List (String × Int)
  unresolvedCount : Int
  patternDefinitionsResolved : Bool
deriving Repr

/-- `section->variableLikeCounts[text]` — `unordered_map::operator[]`
default-constructs 0 for a missing key. -/
def lookupCount (l : List (String × Int)) (k : String) : Int :=
  (List.lookup k l).getD 0

mutual
/-- The classification callback of the resolver's definition scan
(compiler.cpp lines 433-445), applied through `forEachLeafElement`: a
`VariableLike` leaf of a definition with more than one top-level element
(`multi`) is reclassified as text (`Other`) when its count is 0, and blocks
resolution when its count is nonzero; all other leaves pass. The second
component is the definition's surviving `resolved` flag contribution. -/
def classifyElem (counts : String → Int) (multi : Bool) : PElem → PElem × Bool
  | .variableLike txt pos =>
    if multi then
      if counts txt == 0 then (.other txt pos, true)
      else (.variableLike txt pos, false)
    else (.variableLike txt pos, true)
  | .choice pos alts =>
    let r := classifyAlts counts multi alts
    (.choice pos r.1, r.2)
  | e => (e, true)

def classifyElems (counts : String → Int) (multi : Bool) : List PElem → List PElem × Bool
  | [] => ([], true)
  | e :: es =>
    let r1 := classifyElem counts multi e
    let r2 := classifyElems counts multi es
    (r1.1 :: r2.1, r1.2 && r2.2)

def classifyAlts (counts : String → Int) (multi : Bool) :
    List (List PElem) → List (List PElem) × Bool
  | [] => ([], true)
  | alt :: alts =>
    let r1 := classifyElems counts multi alt
    let r2 := classifyAlts counts multi alts
    (r1.1 :: r2.1, r1.2 && r2.2)
end

/-- The per-definition scan of the resolver's section pass (compiler.cpp
lines 430-451): an unresolved definition is classified; if every leaf is
decided it is inserted into the tree of the section's kind, else it stays
unresolved and drags the section flag down. -/
def processDefs (trees : List Trie) (ty : SectionTy) (counts : String → Int) :
    List DefnR → Option (List Trie × List DefnR × Bool)
  | [] => some (trees, [], true)
  | d :: ds =>
    if d.resolved then
      match processDefs trees ty counts ds with
      | none => none
      | some r => some (r.1, d :: r.2.1, r.2.2)
    else
      let c := classifyElems counts (decide (d.patternElements.length > 1)) d.patternElements
      if c.2 then
        match addPatternPart (trees.getD (treeIdx ty) emptyTrie) c.1 d.id with
        | none => none
        | some tr' =>
          match processDefs (trees.set (treeIdx ty) tr') ty counts ds with
          | none => none
          | some r => some (r.1, ⟨d.id, c.1, true⟩ :: r.2.1, r.2.2)
      else
        match processDefs trees ty counts ds with
        | none => none
        | some r => some (r.1, ⟨d.id, c.1, false⟩ :: r.2.1, false)

/-- The force-resolve insertion of compiler.cpp lines 455-463: when the
section is deemed resolved anyway, every still-unresolved definition is
inserted as-is. -/
def forceInsertDefs (trees : List Trie) (ty : SectionTy) :
    List DefnR → Option (List Trie × List DefnR)
  | [] => some (trees, [])
  | d :: ds =>
    if d.resolved then
      match forceInsertDefs trees ty ds with
      | none => none
      | some r => some (r.1, d :: r.2)
    else
      match addPatternPart (trees.getD (treeIdx ty) emptyTrie) d.patternElements d.id with
      | none => none
      | some tr' =>
        match forceInsertDefs (trees.set (treeIdx ty) tr') ty ds with
        | none => none
        | some r => some (r.1, ⟨d.id, d.patternElements, true⟩ :: r.2)

/-- The `erase_if` body of the resolver's section pass (compiler.cpp lines
428-465): classify and insert definitions; if some definition is still
undecided the section stays unresolved unless its `unresolvedCount` is
already 0, in which case everything is force-resolved; the returned flag is
whether the section is removed from the unresolved list. -/
def sectionStep (trees : List Trie) (sec : SectionR) :
    Option (List Trie × SectionR × Bool) :=
  match processDefs trees sec.type (lookupCount sec.variableLikeCounts) sec.patternDefinitions with
  | none => none
  | some r =>
    let flag := if r.2.2 then true else decide (sec.unresolvedCount == 0)
    if flag then
      match forceInsertDefs r.1 sec.type r.2.1 with
      | none => none
      | some r2 =>
        some (r2.1, { sec with patternDefinitions := r2.2, patternDefinitionsResolved := true },
          true)
    else
      some (r.1, { sec with patternDefinitions := r.2.1, patternDefinitionsResolved := false },
        false)

/-- A `PatternReference` during resolution (patternReference.h): identity,
pattern kind, transformed pattern text, parsed elements, resolved flag, the
matched end node when resolved, and the chain of enclosing section ids
(innermost first) used by `decrementVariableLikeCounts` and
`decrementUnresolved`. -/
structure RefR where
  id : Nat
  patternType : SectionTy
  text : String
  patternElements : List PElem
  resolved : Bool
  matchedNode : Option Nat
  ancestors : List Nat
deriving Repr

/-- Resolver-wide state: the section arena, the per-kind pattern trees, and
the diagnostics stream. -/
structure ResolveSt where
  sections : List SectionR
  trees : List Trie
  diagnostics : List Diag
deriving Repr

/-- One `variableLikeCounts` decrement (compiler.cpp lines 366-370): only an
existing, positive entry is decremented. -/
def decCount : List (String × Int) → String → List (String × Int)
  | [], _ => []
  | (k, v) :: rest, key =>
    if k = key then (if v > 0 then (k, v - 1) :: rest else (k, v) :: rest)
    else (k, v) :: decCount rest key

/-- `decrementVariableLikeCounts` (compiler.cpp lines 361-375): walk the
reference's enclosing sections; on each that owns pattern definitions,
decrement the count of every top-level `VariableLike` element of the
reference. -/
def decrementVariableLikeCounts (sections : List SectionR) (ref : RefR) : List SectionR :=
  ref.ancestors.foldl
    (fun secs sid =>
      match secs.get? sid with
      | none => secs
      | some sec =>
        if sec.patternDefinitions.isEmpty then secs
        else
          let cnts' :=
            ref.patternElements.foldl
              (fun cnts e =>
                match e with
                | .variableLike txt _ => decCount cnts txt
                | _ => cnts)
              sec.variableLikeCounts
          secs.set sid { sec with variableLikeCounts := cnts' })
    sections

/-- `Section::decrementUnresolved` along the reference's ancestor chain
(section.cpp lines 477-482): decrement, and continue into the parent exactly
when the count reaches zero. -/
def decUnresolvedChain : List SectionR → List Nat → List SectionR
  | secs, [] => secs
  | secs, sid :: rest =>
    match secs.get? sid with
    | none => secs
    | some sec =>
      let secs' := secs.set sid { sec with unresolvedCount := sec.unresolvedCount - 1 }
      if sec.unresolvedCount - 1 = 0 then decUnresolvedChain secs' rest else secs'

/-- `resolveReferences` (compiler.cpp lines 377-398), parameterized by the
matcher (`ParseContext::match`, whose implementation is not part of this
model): a matched reference resolves (`PatternReference::resolve`,
patternReference.cpp lines 8-12, which also decrements the unresolved chain)
and decrements counts (in phase 1); an unmatched single-`VariableLike`
reference is promoted to a variable and likewise resolved via `resolve()`;
the rest are kept for the next iteration. Variable-reference registration
(`addVariableReferencesFromMatch`, `addVariableReference`) affects only the
variable-scope tables, which are not part of this state. No diagnostic is
ever pushed here. -/
def resolveRefsPass (matcher : List Trie → RefR → Option Nat) (decrementCounts : Bool) :
    ResolveSt → List RefR → ResolveSt × List RefR × List RefR
  | st, [] => (st, [], [])
  | st, ref :: rest =>
    match matcher st.trees ref with
    | some endNode =>
      let ref' := { ref with resolved := true, matchedNode := some endNode }
      let s1 := decUnresolvedChain st.sections ref.ancestors
      let s2 := if decrementCounts then decrementVariableLikeCounts s1 ref else s1
      let st' := { st with sections := s2 }
      let r := resolveRefsPass matcher decrementCounts st' rest
      (r.1, r.2.1, ref' :: r.2.2)
    | none =>
      match ref.patternElements with
      | [.variableLike txt pos] =>
        let ref' := { ref with resolved := true, patternElements := [.var txt pos] }
        let s1 := decUnresolvedChain st.sections ref.ancestors
        let s2 :=
          if decrementCounts then decrementVariableLikeCounts s1 ref
          else s1
        let st' := { st with sections := s2 }
        let r := resolveRefsPass matcher decrementCounts st' rest
        (r.1, r.2.1, ref' :: r.2.2)
      | _ =>
        let r := resolveRefsPass matcher decrementCounts st rest
        (r.1, ref :: r.2.1, r.2.2)

/-- One full section pass (`std::erase_if(unResolvedSections, ...)`,
compiler.cpp line 428): process each unresolved section in order against the
evolving state, keeping those not removed. -/
def runSectionsPass : ResolveSt → List Nat → Option (ResolveSt × List Nat)
  | st, [] => some (st, [])
  | st, sid :: rest =>
    match st.sections.get? sid with
    | none => none
    | some sec =>
      match sectionStep st.trees sec with
      | none => none
      | some r =>
        let st' := { st with trees := r.1, sections := st.sections.set sid r.2.1 }
        match runSectionsPass st' rest with
        | none => none
        | some r2 => some (r2.1, if r.2.2 then r2.2 else sid :: r2.2)

/-- Phase 1 of `resolvePatterns` (compiler.cpp lines 425-471): up to
`maxResolutionIterations` rounds of section pass plus body-reference
resolution, stopping early when both worklists are empty. -/
def phase1LoopF (matcher : List Trie → RefR → Option Nat) :
    Nat → ResolveSt → List Nat → List RefR → Option (ResolveSt × List Nat × List RefR)
  | 0, st, ids, refs => some (st, ids, refs)
  | fuel + 1, st, ids, refs =>
    match runSectionsPass st ids with
    | none => none
    | some r1 =>
      let r2 := resolveRefsPass matcher true r1.1 refs
      if r1.2.isEmpty && r2.2.1.isEmpty then some (r2.1, r1.2, r2.2.1)
      else phase1LoopF matcher fuel r2.1 r1.2 r2.2.1

/-- Phase 2 of `resolvePatterns` (compiler.cpp lines 474-478): drain global
references the same way, without decrementing counts. -/
def phase2LoopF (matcher : List Trie → RefR → Option Nat) :
    Nat → ResolveSt → List RefR → ResolveSt × List RefR
  | 0, st, refs => (st, refs)
  | fuel + 1, st, refs =>
    let r := resolveRefsPass matcher false st refs
    if r.2.1.isEmpty then (r.1, r.2.1)
    else phase2LoopF matcher fuel r.1 r.2.1

/-- The diagnostic pushed per remaining unresolved reference (compiler.cpp
lines 481-488). -/
def unresolvedDiag (_r : RefR) : Diag := ⟨.error, "This pattern couldn't be resolved"⟩

/-- `resolvePatterns` (compiler.cpp lines 401-526) over a pre-collected
state: the per-kind tree roots are freshly allocated (lines 420-422), phase 1
and phase 2 run with the iteration bound, and if anything is left unresolved
one Error diagnostic is pushed per remaining body and global reference and
the stage fails. On success the expansion and variable-scope steps (lines
493-524) push no diagnostics and are outside this state. Reference and
definition element parsing (lines 406-414) is assumed already done on the
inputs. -/
def resolvePatternsModel (maxIter : Nat) (matcher : List Trie → RefR → Option Nat)
    (st0 : ResolveSt) (ids : List Nat) (bodyRefs globalRefs : List RefR) :
    Option (ResolveSt × Bool) :=
  let stInit := { st0 with trees := List.replicate 11 emptyTrie }
  match phase1LoopF matcher maxIter stInit ids bodyRefs with
  | none => none
  | some r1 =>
    let r2 := phase2LoopF matcher maxIter r1.1 globalRefs
    if r1.2.1.isEmpty && r1.2.2.isEmpty && r2.2.isEmpty then some (r2.1, true)
    else
      let diags := r2.1.diagnostics ++ r1.2.2.map unresolvedDiag ++ r2.2.map unresolvedDiag
      some ({ r2.1 with diagnostics := diags }, false)

/-- `compile` (compiler.cpp lines 37-40): the four stages chained with
short-circuiting `&&`; the third returned component records whether
`inferTypes` was invoked at all. -/
def compileModel {σ : Type} (importStage analyzeStage resolveStage inferStage : σ → σ × Bool)
    (s : σ) : σ × Bool × Bool :=
  let r1 := importStage s
  if r1.2 then
    let r2 := analyzeStage r1.1
    if r2.2 then
      let r3 := resolveStage r2.1
      if r3.2 then
        let r4 := inferStage r3.1
        (r4.1, r4.2, true)
      else (r3.1, false, false)
    else (r2.1, false, false)
  else (r1.1, false, false)

/-- C2: if after the bounded resolver iteration (the
`maxResolutionIterations` bound, default 256 per parseContext.h) any body or
global reference is still unresolved, `resolvePatterns` appends exactly one
Error diagnostic per remaining reference and fails; and in `compile`
(compiler.cpp line 39) a failing resolve stage short-circuits the `&&` chain,
so `inferTypes` is not run. -/
theorem resolvePatterns_failure_diagnostics :
    (∀ (maxIter : Nat) (matcher : List Trie → RefR → Option Nat) (st0 : ResolveSt)
      (ids : List Nat) (bodyRefs globalRefs : List RefR)
      (r1 : ResolveSt × List Nat × List RefR) (r2 : ResolveSt × List RefR),
      phase1LoopF matcher maxIter { st0 with trees := List.replicate 11 emptyTrie } ids
        bodyRefs = some r1 →
      phase2LoopF matcher maxIter r1.1 globalRefs = r2 →
      (r1.2.2 ≠ [] ∨ r2.2 ≠ []) →
      resolvePatternsModel maxIter matcher st0 ids bodyRefs globalRefs =
        some (⟨r2.1.sections, r2.1.trees,
          r2.1.diagnostics ++ r1.2.2.map unresolvedDiag ++ r2.2.map unresolvedDiag⟩, false) ∧
      (r2.1.diagnostics ++ r1.2.2.map unresolvedDiag ++ r2.2.map unresolvedDiag).length =
        r2.1.diagnostics.length + r1.2.2.length + r2.2.length ∧
      (∀ d ∈ r1.2.2.map unresolvedDiag ++ r2.2.map unresolvedDiag, d.level = .error)) ∧
    (∀ (σ : Type) (importStage analyzeStage resolveStage inferStage : σ → σ × Bool) (s : σ),
      (resolveStage (analyzeStage (importStage s).1).1).2 = false →
      (compileModel importStage analyzeStage resolveStage inferStage s).2.1 = false ∧
      (compileModel importStage analyzeStage resolveStage inferStage s).2.2 = false) := by
  constructor
  · intro maxIter matcher st0 ids bodyRefs globalRefs r1 r2 h1 h2 hne
    have hcond : (r1.2.1.isEmpty && r1.2.2.isEmpty && r2.2.isEmpty) = false := by
      rcases hne with hb | hg
      · cases hr : r1.2.2 with
        | nil => exact absurd hr hb
        | cons x xs => simp [hr]
      · cases hr : r2.2 with
        | nil => exact absurd hr hg
        | cons x xs => simp [hr]
    refine ⟨?_, by simp [Nat.add_assoc], ?_⟩
    · simp only [resolvePatternsModel, h1, h2, hcond, Bool.false_eq_true, if_false]
    · intro d hd
      rcases List.mem_append.mp hd with h | h <;>
        · obtain ⟨r, _, hr⟩ := List.mem_map.mp h
          rw [← hr]
          rfl
  · intro σ importStage analyzeStage resolveStage inferStage s hres
    by_cases h1 : (importStage s).2 = true
    · by_cases h2 : (analyzeStage (importStage s).1).2 = true
      · constructor <;> simp [compileModel, h1, h2, hres]
      · constructor <;> simp [compileModel, h1, h2]
    · constructor <;> simp [compileModel, h1]

/-- Witness for C2: one body reference that no matcher resolves, bound 1. -/
theorem resolvePatterns_failure_diagnostics_witness :
    resolvePatternsModel 1 (fun _ _ => none) ⟨[], [], []⟩ []
      [⟨0, .effect, "x y", [.variableLike "x" 0, .other " " 1, .variableLike "y" 2], false,
        none, []⟩] [] =
      some (⟨[], List.replicate 11 emptyTrie,
        [⟨.error, "This pattern couldn't be resolved"⟩]⟩, false) ∧
    (compileModel (fun s : Nat => (s, true)) (fun s => (s, true)) (fun s => (s, false))
      (fun s => (s, true)) 0).2.2 = false := by
  constructor
  · exact (resolvePatterns_failure_diagnostics.1 1 (fun _ _ => none) ⟨[], [], []⟩ []
      [⟨0, .effect, "x y", [.variableLike "x" 0, .other " " 1, .variableLike "y" 2], false,
        none, []⟩] []
      (⟨⟨[], List.replicate 11 emptyTrie, []⟩, [],
        [⟨0, .effect, "x y", [.variableLike "x" 0, .other " " 1, .variableLike "y" 2], false,
          none, []⟩]⟩ : ResolveSt × List Nat × List RefR)
      ((⟨[], List.replicate 11 emptyTrie, []⟩, []) : ResolveSt × List RefR)
      rfl rfl (Or.inl (by simp))).1
  · exact (resolvePatterns_failure_diagnostics.2 Nat _ _ _ _ 0 rfl).2

theorem getDSetNe {α : Type} (l : List α) (i j : Nat) (x d : α) (h : i ≠ j) :
    (l.set i x).getD j d = l.getD j d := by
  induction l generalizing i j with
  | nil => simp
  | cons a t ih =>
    cases i with
    | zero =>
      cases j with
      | zero => exact absurd rfl h
      | succ j => simp [List.set]
    | succ i =>
      cases j with
      | zero => simp [List.set]
      | succ j =>
        simp only [List.set, List.getD_cons_succ]
        exact ih i j (fun hh => h (by rw [hh]))

theorem processDefs_other_trees (ty : SectionTy) (counts : String → Int) :
    ∀ (defs : List DefnR) (trees : List Trie) (r : List Trie × List DefnR × Bool),
      processDefs trees ty counts defs = some r →
      ∀ j, j ≠ treeIdx ty → r.1.getD j emptyTrie = trees.getD j emptyTrie := by
  intro defs
  induction defs with
  | nil =>
    intro trees r h j hj
    simp only [processDefs, Option.some.injEq] at h
    rw [← h]
  | cons d ds ih =>
    intro trees r h j hj
    simp only [processDefs] at h
    split at h
    · split at h
      · exact Option.noConfusion h
      · rename_i r' hr'
        simp only [Option.some.injEq] at h
        rw [← h]
        exact ih trees r' hr' j hj
    · split at h
      · split at h
        · exact Option.noConfusion h
        · rename_i tr' htr
          split at h
          · exact Option.noConfusion h
          · rename_i r' hr'
            simp only [Option.some.injEq] at h
            rw [← h]
            have h2 := ih _ r' hr' j hj
            rw [h2, getDSetNe _ _ _ _ _ (fun hh => hj hh.symm)]
      · split at h
        · exact Option.noConfusion h
        · rename_i r' hr'
          simp only [Option.some.injEq] at h
          rw [← h]
          exact ih trees r' hr' j hj

theorem forceInsertDefs_other_trees (ty : SectionTy) :
    ∀ (defs : List DefnR) (trees : List Trie) (r : List Trie × List DefnR),
      forceInsertDefs trees ty defs = some r →
      ∀ j, j ≠ treeIdx ty → r.1.getD j emptyTrie = trees.getD j emptyTrie := by
  intro defs
  induction defs with
  | nil =>
    intro trees r h j hj
    simp only [forceInsertDefs, Option.some.injEq] at h
    rw [← h]
  | cons d ds ih =>
    intro trees r h j hj
    simp only [forceInsertDefs] at h
    split at h
    · split at h
      · exact Option.noConfusion h
      · rename_i r' hr'
        simp only [Option.some.injEq] at h
        rw [← h]
        exact ih trees r' hr' j hj
    · split at h
      · exact Option.noConfusion h
      · rename_i tr' htr
        split at h
        · exact Option.noConfusion h
        · rename_i r' hr'
          simp only [Option.some.injEq] at h
          rw [← h]
          have h2 := ih _ r' hr' j hj
          rw [h2, getDSetNe _ _ _ _ _ (fun hh => hj hh.symm)]

theorem forceInsertDefs_all_resolved (ty : SectionTy) :
    ∀ (defs : List DefnR) (trees : List Trie) (r : List Trie × List DefnR),
      forceInsertDefs trees ty defs = some r →
      ∀ d ∈ r.2, d.resolved = true := by
  intro defs
  induction defs with
  | nil =>
    intro trees r h d hd
    simp only [forceInsertDefs, Option.some.injEq] at h
    rw [← h] at hd
    simp at hd
  | cons d0 ds ih =>
    intro trees r h d hd
    simp only [forceInsertDefs] at h
    split at h
    case isTrue hres =>
      split at h
      · exact Option.noConfusion h
      · rename_i r' hr'
        simp only [Option.some.injEq] at h
        rw [← h] at hd
        rcases List.mem_cons.mp hd with hd | hd
        · rw [hd]; exact hres
        · exact ih trees r' hr' d hd
    case isFalse hres =>
      split at h
      · exact Option.noConfusion h
      · rename_i tr' htr
        split at h
        · exact Option.noConfusion h
        · rename_i r' hr'
          simp only [Option.some.injEq] at h
          rw [← h] at hd
          rcases List.mem_cons.mp hd with hd | hd
          · rw [hd]
          · exact ih _ r' hr' d hd

theorem processDefs_flag_false (ty : SectionTy) (counts : String → Int) :
    ∀ (defs : List DefnR) (trees : List Trie) (r : List Trie × List DefnR × Bool),
      processDefs trees ty counts defs = some r → r.2.2 = false →
      ∃ d ∈ r.2.1, d.resolved = false := by
  intro defs
  induction defs with
  | nil =>
    intro trees r h hf
    simp only [processDefs, Option.some.injEq] at h
    rw [← h] at hf
    simp at hf
  | cons d0 ds ih =>
    intro trees r h hf
    simp only [processDefs] at h
    split at h
    · split at h
      · exact Option.noConfusion h
      · rename_i r' hr'
        simp only [Option.some.injEq] at h
        rw [← h] at hf ⊢
        obtain ⟨d, hd, hdr⟩ := ih trees r' hr' hf
        exact ⟨d, List.mem_cons_of_mem _ hd, hdr⟩
    · split at h
      · split at h
        · exact Option.noConfusion h
        · rename_i tr' htr
          split at h
          · exact Option.noConfusion h
          · rename_i r' hr'
            simp only [Option.some.injEq] at h
            rw [← h] at hf ⊢
            obtain ⟨d, hd, hdr⟩ := ih _ r' hr' hf
            exact ⟨d, List.mem_cons_of_mem _ hd, hdr⟩
      · split at h
        · exact Option.noConfusion h
        · rename_i r' hr'
          simp only [Option.some.injEq] at h
          rw [← h]
          exact ⟨_, List.mem_cons_self _ _, rfl⟩

theorem classifyElems_blocked (counts : String → Int) :
    ∀ (els : List PElem) (txt : String) (pos : Nat),
      PElem.variableLike txt pos ∈ els → counts txt ≠ 0 →
      (classifyElems counts true els).2 = false := by
  intro els
  induction els with
  | nil => intro txt pos h _; simp at h
  | cons e es ih =>
    intro txt pos h hc
    rcases List.mem_cons.mp h with h1 | h1
    · rw [← h1]
      simp only [classifyElems, classifyElem]
      have hcf : (counts txt == 0) = false := by
        simp only [beq_eq_false_iff_ne, ne_eq]
        exact hc
      rw [hcf]
      simp
    · have hrec := ih txt pos h1 hc
      simp only [classifyElems, hrec, Bool.and_false]

theorem processDefs_blocked (ty : SectionTy) (counts : String → Int) :
    ∀ (defs : List DefnR) (trees : List Trie) (r : List Trie × List DefnR × Bool),
      processDefs trees ty counts defs = some r →
      ∀ d ∈ defs, d.resolved = false →
      (classifyElems counts (decide (d.patternElements.length > 1)) d.patternElements).2 =
        false →
      r.2.2 = false ∧ ∃ d' ∈ r.2.1, d'.id = d.id ∧ d'.resolved = false := by
  intro defs
  induction defs with
  | nil =>
    intro trees r h d hd
    simp at hd
  | cons d0 ds ih =>
    intro trees r h d hd hdres hdflag
    simp only [processDefs] at h
    rcases List.mem_cons.mp hd with h1 | h1
    · subst h1
      rw [hdres] at h
      simp only [Bool.false_eq_true, if_false] at h
      rw [hdflag] at h
      simp only [Bool.false_eq_true, if_false] at h
      rcases hrec : processDefs trees ty counts ds with _ | r'
      · rw [hrec] at h
        exact Option.noConfusion h
      · rw [hrec] at h
        simp only [Option.some.injEq] at h
        rw [← h]
        exact ⟨rfl, ⟨_, List.mem_cons_self _ _, rfl, rfl⟩⟩
    · split at h
      · rcases hrec : processDefs trees ty counts ds with _ | r'
        · rw [hrec] at h
          exact Option.noConfusion h
        · rw [hrec] at h
          simp only [Option.some.injEq] at h
          obtain ⟨hf, d', hd', hid, hres⟩ := ih trees r' hrec d h1 hdres hdflag
          rw [← h]
          exact ⟨hf, d', List.mem_cons_of_mem _ hd', hid, hres⟩
      · split at h
        · split at h
          · exact Option.noConfusion h
          · rename_i tr' htr
            rcases hrec : processDefs (trees.set (treeIdx ty) tr') ty counts ds with _ | r'
            · rw [hrec] at h
              exact Option.noConfusion h
            · rw [hrec] at h
              simp only [Option.some.injEq] at h
              obtain ⟨hf, d', hd', hid, hres⟩ := ih _ r' hrec d h1 hdres hdflag
              rw [← h]
              exact ⟨hf, d', List.mem_cons_of_mem _ hd', hid, hres⟩
        · rcases hrec : processDefs trees ty counts ds with _ | r'
          · rw [hrec] at h
            exact Option.noConfusion h
          · rw [hrec] at h
            simp only [Option.some.injEq] at h
            obtain ⟨_, d', hd', hid, hres⟩ := ih trees r' hrec d h1 hdres hdflag
            rw [← h]
            exact ⟨rfl, d', List.mem_cons_of_mem _ hd', hid, hres⟩

/-- C3: in every resolver section pass (compiler.cpp lines 425-465), a
`VariableLike` leaf of an unresolved definition with more than one top-level
element is reclassified as text when the section's `variableLikeCounts` entry
for its text is 0, and blocks resolution when the count is nonzero (the
surviving-resolved flag is false); a single-element definition's
`VariableLike` leaf never blocks; when the section's `unresolvedCount` is 0
the section is removed anyway with every definition force-resolved, and a
removal flag of false implies `unresolvedCount ≠ 0` and some definition left
unresolved; conversely (the forward direction) a `VariableLike` leaf with a
positive count forces the classification flag of its element list to false,
and an unresolved multi-element definition containing such a leaf, in a
section whose `unresolvedCount` is nonzero, makes `sectionStep` keep the
section (removed = false, `patternDefinitionsResolved` = false) with that
definition still unresolved in the output; definitions only ever modify the
tree of the section's kind, and `Class` definitions are routed to the
`Expression` tree. -/
theorem resolver_classification_and_force_resolve :
    (∀ (counts : String → Int) (txt : String) (pos : Nat), counts txt = 0 →
        classifyElem counts true (.variableLike txt pos) = (.other txt pos, true)) ∧
    (∀ (counts : String → Int) (txt : String) (pos : Nat), counts txt ≠ 0 →
        classifyElem counts true (.variableLike txt pos) = (.variableLike txt pos, false)) ∧
    (∀ (counts : String → Int) (txt : String) (pos : Nat),
        classifyElem counts false (.variableLike txt pos) = (.variableLike txt pos, true)) ∧
    (∀ (trees : List Trie) (sec : SectionR) (trees' : List Trie) (sec' : SectionR)
        (removed : Bool), sectionStep trees sec = some (trees', sec', removed) →
        (sec.unresolvedCount = 0 → removed = true ∧ sec'.patternDefinitionsResolved = true ∧
            ∀ d ∈ sec'.patternDefinitions, d.resolved = true) ∧
        (removed = false → sec.unresolvedCount ≠ 0 ∧
            ∃ d ∈ sec'.patternDefinitions, d.resolved = false) ∧
        (∀ j, j ≠ treeIdx sec.type → trees'.getD j emptyTrie = trees.getD j emptyTrie)) ∧
    (∀ (counts : String → Int) (els : List PElem) (txt : String) (pos : Nat),
        PElem.variableLike txt pos ∈ els → counts txt ≠ 0 →
        (classifyElems counts true els).2 = false) ∧
    (∀ (trees : List Trie) (sec : SectionR) (trees' : List Trie) (sec' : SectionR)
        (removed : Bool) (d : DefnR),
        sectionStep trees sec = some (trees', sec', removed) →
        sec.unresolvedCount ≠ 0 →
        d ∈ sec.patternDefinitions → d.resolved = false →
        d.patternElements.length > 1 →
        (∃ txt pos, PElem.variableLike txt pos ∈ d.patternElements ∧
          lookupCount sec.variableLikeCounts txt ≠ 0) →
        removed = false ∧ sec'.patternDefinitionsResolved = false ∧
          ∃ d' ∈ sec'.patternDefinitions, d'.id = d.id ∧ d'.resolved = false) ∧
    treeIdx .classTy = treeIdx .expression := by
  refine ⟨?_, ?_, ?_, ?_, ?_, ?_, rfl⟩
  · intro counts txt pos h
    simp [classifyElem, h]
  · intro counts txt pos h
    simp [classifyElem, h]
  · intro counts txt pos
    simp [classifyElem]
  · intro trees sec trees' sec' removed h
    rcases hp : processDefs trees sec.type (lookupCount sec.variableLikeCounts)
        sec.patternDefinitions with _ | r
    · simp only [sectionStep, hp] at h
      exact Option.noConfusion h
    · simp only [sectionStep, hp] at h
      rcases hflag : (if r.2.2 then true else decide (sec.unresolvedCount == 0)) with _ | _
      · rw [hflag, if_neg Bool.false_ne_true] at h
        simp only [Option.some.injEq, Prod.mk.injEq] at h
        obtain ⟨h1, h2, h3⟩ := h
        subst h1
        subst h3
        have hr22 : r.2.2 = false := by
          cases hcr : r.2.2
          · rfl
          · rw [hcr] at hflag
            simp at hflag
        rw [hr22] at hflag
        simp only [Bool.false_eq_true, if_false, decide_eq_false_iff_not] at hflag
        have hcount : sec.unresolvedCount ≠ 0 := by
          intro hc
          exact hflag (by rw [hc]; rfl)
        refine ⟨?_, ?_, ?_⟩
        · intro hc
          exact absurd hc hcount
        · intro _
          refine ⟨hcount, ?_⟩
          have hex := processDefs_flag_false sec.type (lookupCount sec.variableLikeCounts)
            sec.patternDefinitions trees r hp hr22
          rw [← h2]
          exact hex
        · intro j hj
          exact processDefs_other_trees sec.type _ sec.patternDefinitions trees r hp j hj
      · rw [hflag, if_pos rfl] at h
        rcases hq : forceInsertDefs r.1 sec.type r.2.1 with _ | r2
        · rw [hq] at h
          exact Option.noConfusion h
        · rw [hq] at h
          simp only [Option.some.injEq, Prod.mk.injEq] at h
          obtain ⟨h1, h2, h3⟩ := h
          subst h1
          subst h3
          refine ⟨?_, ?_, ?_⟩
          · intro _
            refine ⟨rfl, ?_, ?_⟩
            · rw [← h2]
            · intro d hd
              rw [← h2] at hd
              exact forceInsertDefs_all_resolved sec.type r.2.1 r.1 r2 hq d hd
          · intro hc
            exact absurd hc (by simp)
          · intro j hj
            rw [forceInsertDefs_other_trees sec.type r.2.1 r.1 r2 hq j hj]
            exact processDefs_other_trees sec.type _ sec.patternDefinitions trees r hp j hj
  · intro counts els txt pos hmem hc
    exact classifyElems_blocked counts els txt pos hmem hc
  · intro trees sec trees' sec' removed d h hcnt hd hdres hlen hvl
    obtain ⟨txt, pos, hmem, hc⟩ := hvl
    have hflagcls : (classifyElems (lookupCount sec.variableLikeCounts)
        (decide (d.patternElements.length > 1)) d.patternElements).2 = false := by
      rw [decide_eq_true hlen]
      exact classifyElems_blocked _ d.patternElements txt pos hmem hc
    rcases hp : processDefs trees sec.type (lookupCount sec.variableLikeCounts)
        sec.patternDefinitions with _ | r
    · simp only [sectionStep, hp] at h
      exact Option.noConfusion h
    · have hblk := processDefs_blocked sec.type (lookupCount sec.variableLikeCounts)
        sec.patternDefinitions trees r hp d hd hdres hflagcls
      simp only [sectionStep, hp] at h
      have hflag : (if r.2.2 then true else decide (sec.unresolvedCount == 0)) = false := by
        rw [hblk.1]
        simp only [Bool.false_eq_true, if_false, decide_eq_false_iff_not]
        intro hh
        exact hcnt (by exact_mod_cast beq_iff_eq.mp hh)
      rw [hflag, if_neg Bool.false_ne_true] at h
      simp only [Option.some.injEq, Prod.mk.injEq] at h
      obtain ⟨h1, h2, h3⟩ := h
      subst h3
      refine ⟨rfl, ?_, ?_⟩
      · rw [← h2]
      · rw [← h2]
        exact hblk.2

theorem resolver_classification_and_force_resolve_witness :
    classifyElem (fun _ => 0) true (.variableLike "x" 0) = (.other "x" 0, true) ∧
    classifyElem (fun _ => 1) true (.variableLike "x" 0) = (.variableLike "x" 0, false) ∧
    classifyElem (fun _ => 1) false (.variableLike "x" 0) = (.variableLike "x" 0, true) ∧
    Option.map (fun p => (p.2.2, p.2.1.patternDefinitionsResolved))
      (sectionStep (List.replicate 11 emptyTrie)
        ⟨.effect, [⟨5, [PElem.variableLike "x" 0], false⟩], [], 0, false⟩) =
      some (true, true) ∧
    Option.map (fun p => (p.2.2, p.2.1.patternDefinitionsResolved,
        p.2.1.patternDefinitions.any (fun d' => !d'.resolved)))
      (sectionStep (List.replicate 11 emptyTrie)
        ⟨.effect, [⟨7, [PElem.variableLike "x" 0, PElem.other " " 1], false⟩],
          [("x", 2)], 1, false⟩) =
      some (false, false, true) := by
  refine ⟨resolver_classification_and_force_resolve.1 (fun _ => 0) "x" 0 rfl,
    resolver_classification_and_force_resolve.2.1 (fun _ => 1) "x" 0 (by decide),
    resolver_classification_and_force_resolve.2.2.1 (fun _ => 1) "x" 0, ?_, ?_⟩
  · rcases hkey : sectionStep (List.replicate 11 emptyTrie)
        ⟨.effect, [⟨5, [PElem.variableLike "x" 0], false⟩], [], 0, false⟩ with _ | ⟨t, s, b⟩
    · exact Bool.noConfusion (congrArg Option.isSome hkey)
    · obtain ⟨hi, _, _⟩ :=
        resolver_classification_and_force_resolve.2.2.2.1 _ _ t s b hkey
      obtain ⟨hb, hres, _⟩ := hi rfl
      simp only [Option.map, Option.some.injEq]
      rw [hb, hres]
  · rcases hkey : sectionStep (List.replicate 11 emptyTrie)
        ⟨.effect, [⟨7, [PElem.variableLike "x" 0, PElem.other " " 1], false⟩],
          [("x", 2)], 1, false⟩ with _ | ⟨t, s, b⟩
    · exact Bool.noConfusion (congrArg Option.isSome hkey)
    · obtain ⟨hb, hres, d', hd', _, hdr⟩ :=
        resolver_classification_and_force_resolve.2.2.2.2.2.1 _ _ t s b
          ⟨7, [PElem.variableLike "x" 0, PElem.other " " 1], false⟩ hkey (by decide)
          (List.mem_cons_self _ _) rfl (by decide)
          ⟨"x", 0, List.mem_cons_self _ _, by decide⟩
      simp only [Option.map, Option.some.injEq, Prod.mk.injEq]
      refine ⟨hb, hres, ?_⟩
      exact List.any_eq_true.mpr ⟨d', hd', by simp [hdr]⟩

theorem getDSetEq {α : Type} (l : List α) (i : Nat) (x d : α) (h : i < l.length) :
    (l.set i x).getD i d = x := by
  induction l generalizing i with
  | nil => simp at h
  | cons a t ih =>
    cases i with
    | zero => simp [List.set]
    | succ i =>
      simp only [List.set, List.getD_cons_succ]
      exact ih i (by simpa using h)

theorem updateNode_length (t : Trie) (i : Nat) (f : TrieNode → TrieNode) :
    (updateNode t i f).nodes.length = t.nodes.length := by
  simp [updateNode]

theorem setMatchFold_not_mem (defId : Nat) :
    ∀ (l : List Nat) (acc : Trie) (n : Nat), n ∉ l →
      ((l.foldl (fun a m => updateNode a m
          (fun nd => { nd with matchingDefinition := some defId })) acc).nodes.getD n
          defaultNode) =
        acc.nodes.getD n defaultNode := by
  intro l
  induction l with
  | nil => intro acc n _; rfl
  | cons a t ih =>
    intro acc n hn
    have hna : a ≠ n := fun hh => hn (hh ▸ List.mem_cons_self a t)
    have hnt : n ∉ t := fun hh => hn (List.mem_cons_of_mem _ hh)
    simp only [List.foldl_cons]
    rw [ih _ n hnt]
    simp only [updateNode]
    exact getDSetNe _ _ _ _ _ hna

theorem setMatchFold_mem (defId : Nat) :
    ∀ (l : List Nat) (acc : Trie) (n : Nat), n ∈ l → n < acc.nodes.length →
      (((l.foldl (fun a m => updateNode a m
          (fun nd => { nd with matchingDefinition := some defId })) acc).nodes.getD n
          defaultNode)).matchingDefinition = some defId := by
  intro l
  induction l with
  | nil => intro acc n hn _; simp at hn
  | cons a t ih =>
    intro acc n hn hlen
    simp only [List.foldl_cons]
    by_cases hnt : n ∈ t
    · exact ih _ n hnt (by rw [updateNode_length]; exact hlen)
    · have hna : n = a := by
        rcases List.mem_cons.mp hn with h | h
        · exact h
        · exact absurd h hnt
      subst hna
      rw [setMatchFold_not_mem defId t _ n hnt]
      simp only [updateNode]
      rw [getDSetEq _ _ _ _ hlen]

theorem resolveRefsPass_diags (matcher : List Trie → RefR → Option Nat) (dec : Bool) :
    ∀ (refs : List RefR) (st : ResolveSt),
      ((resolveRefsPass matcher dec st refs).1).diagnostics = st.diagnostics := by
  intro refs
  induction refs with
  | nil => intro st; rfl
  | cons ref rest ih =>
    intro st
    simp only [resolveRefsPass]
    split
    · rw [ih]
    · split
      · rw [ih]
      · rw [ih]

theorem runSectionsPass_diags :
    ∀ (ids : List Nat) (st : ResolveSt) (r : ResolveSt × List Nat),
      runSectionsPass st ids = some r → r.1.diagnostics = st.diagnostics := by
  intro ids
  induction ids with
  | nil =>
    intro st r h
    simp only [runSectionsPass, Option.some.injEq] at h
    rw [← h]
  | cons sid rest ih =>
    intro st r h
    simp only [runSectionsPass] at h
    rcases hg : st.sections.get? sid with _ | sec
    · simp only [hg] at h
      exact Option.noConfusion h
    · simp only [hg] at h
      rcases hs : sectionStep st.trees sec with _ | rr
      · simp only [hs] at h
        exact Option.noConfusion h
      · simp only [hs] at h
        rcases hrec : runSectionsPass
            { st with trees := rr.1, sections := st.sections.set sid rr.2.1 } rest with _ | r2
        · simp only [hrec] at h
          exact Option.noConfusion h
        · simp only [hrec, Option.some.injEq] at h
          have hrec2 := ih _ r2 hrec
          rw [← h, hrec2]

theorem phase1LoopF_diags (matcher : List Trie → RefR → Option Nat) :
    ∀ (fuel : Nat) (st : ResolveSt) (ids : List Nat) (refs : List RefR)
      (r : ResolveSt × List Nat × List RefR),
      phase1LoopF matcher fuel st ids refs = some r → r.1.diagnostics = st.diagnostics := by
  intro fuel
  induction fuel with
  | zero =>
    intro st ids refs r h
    simp only [phase1LoopF, Option.some.injEq] at h
    rw [← h]
  | succ fuel ih =>
    intro st ids refs r h
    simp only [phase1LoopF] at h
    rcases h1 : runSectionsPass st ids with _ | r1
    · simp only [h1] at h
      exact Option.noConfusion h
    · simp only [h1] at h
      split at h
      · simp only [Option.some.injEq] at h
        rw [← h]
        have hd := resolveRefsPass_diags matcher true refs r1.1
        dsimp only
        rw [hd]
        exact runSectionsPass_diags ids st r1 h1
      · have := ih _ _ _ _ h
        rw [this, resolveRefsPass_diags matcher true refs r1.1]
        exact runSectionsPass_diags ids st r1 h1

theorem phase2LoopF_diags (matcher : List Trie → RefR → Option Nat) :
    ∀ (fuel : Nat) (st : ResolveSt) (refs : List RefR),
      ((phase2LoopF matcher fuel st refs).1).diagnostics = st.diagnostics := by
  intro fuel
  induction fuel with
  | zero => intro st refs; rfl
  | succ fuel ih =>
    intro st refs
    simp only [phase2LoopF]
    split
    · exact resolveRefsPass_diags matcher false refs st
    · rw [ih, resolveRefsPass_diags matcher false refs st]

/-- C1: the spec claims the shared end node retains both definitions
(`patterns_ended_here`), that a matching call site tie-breaks to the
first-inserted definition, and that an Info diagnostic is emitted per
ambiguous call site. In the source (patternTreeNode.cpp lines 73-79) the end
node has a single `matchingDefinition` slot: inserting the identical element
sequence for definitions 1 and then 2 leaves `some 2` — the first definition
is lost, not preferred — and a resolution run over a matching call site
produces no diagnostics at all. -/
theorem trie_duplicate_definition_counterexample :
    Option.map (fun t => (t.nodes.getD 1 defaultNode).matchingDefinition)
      ((addPatternPart emptyTrie [PElem.other "a" 0] 1).bind
        (fun t1 => addPatternPart t1 [PElem.other "a" 0] 2)) = some (some 2) ∧
    (some 2 : Option Nat) ≠ some 1 ∧
    (resolvePatternsModel 1 (fun _ _ => some 1) ⟨[], [], []⟩ []
        [⟨0, .effect, "a", [PElem.other "a" 0], false, none, []⟩] []).map
      (fun p => (p.1.diagnostics, p.2)) = some ([], true) := by
  refine ⟨rfl, by decide, rfl⟩

/-- C1 (amended): inserting a pattern's element sequence assigns the
inserting definition to the single `matchingDefinition` slot of every
endpoint node, overwriting any previously recorded definition — so for two
identical sequences the shared end node holds only the last-inserted
definition, which is what a matching call site resolves to; reference
resolution never pushes a diagnostic, and the whole resolver only ever adds
Error diagnostics (in particular no Info diagnostic is emitted for the
duplication). -/
theorem trie_shared_end_node_last_insertion_wins :
    (∀ (t : Trie) (els : List PElem) (defId : Nat) (r : Trie × List Nat) (t' : Trie),
        addElementSequenceF (pelemListWeight els + 1) t [0] els defId = some r →
        addPatternPart t els defId = some t' →
        ∀ n ∈ r.2, n < r.1.nodes.length →
          (t'.nodes.getD n defaultNode).matchingDefinition = some defId) ∧
    (∀ (matcher : List Trie → RefR → Option Nat) (dec : Bool) (st : ResolveSt)
        (refs : List RefR),
        ((resolveRefsPass matcher dec st refs).1).diagnostics = st.diagnostics) ∧
    (∀ (maxIter : Nat) (matcher : List Trie → RefR → Option Nat) (st0 : ResolveSt)
        (ids : List Nat) (bodyRefs globalRefs : List RefR) (res : ResolveSt × Bool),
        resolvePatternsModel maxIter matcher st0 ids bodyRefs globalRefs = some res →
        ∀ d ∈ res.1.diagnostics, d ∈ st0.diagnostics ∨ d.level = .error) ∧
    DiagLevel.error ≠ DiagLevel.info := by
  refine ⟨?_, ?_, ?_, by decide⟩
  · intro t els defId r t' h1 h2 n hn hlen
    simp only [addPatternPart, h1, Option.some.injEq] at h2
    rw [← h2]
    exact setMatchFold_mem defId r.2 r.1 n hn hlen
  · intro matcher dec st refs
    exact resolveRefsPass_diags matcher dec refs st
  · intro maxIter matcher st0 ids bodyRefs globalRefs res h d hd
    simp only [resolvePatternsModel] at h
    rcases h1 : phase1LoopF matcher maxIter
        { st0 with trees := List.replicate 11 emptyTrie } ids bodyRefs with _ | r1
    · simp only [h1] at h
      exact Option.noConfusion h
    · simp only [h1] at h
      have hdg : ((phase2LoopF matcher maxIter r1.1 globalRefs).1).diagnostics =
          st0.diagnostics := by
        have hph := phase1LoopF_diags matcher maxIter _ ids bodyRefs r1 h1
        rw [phase2LoopF_diags matcher maxIter r1.1 globalRefs, hph]
      split at h
      · simp only [Option.some.injEq] at h
        rw [← h] at hd
        dsimp only at hd
        rw [hdg] at hd
        exact Or.inl hd
      · simp only [Option.some.injEq] at h
        rw [← h] at hd
        dsimp only at hd
        rw [hdg] at hd
        rcases List.mem_append.mp hd with hmem | hmem
        · rcases List.mem_append.mp hmem with hmem2 | hmem2
          · exact Or.inl hmem2
          · rcases List.mem_map.mp hmem2 with ⟨ref, _, hrd⟩
            right
            rw [← hrd]
            rfl
        · rcases List.mem_map.mp hmem with ⟨ref, _, hrd⟩
          right
          rw [← hrd]
          rfl

theorem trie_shared_end_node_last_insertion_wins_witness :
    ((⟨[⟨.other, "", [("a", 1)], none, [], none⟩,
        ⟨.other, "a", [], none, [], some 1⟩]⟩ : Trie).nodes.getD 1
        defaultNode).matchingDefinition = some 1 ∧
    ((resolveRefsPass (fun _ _ => none) true
        ⟨[], [], [⟨.error, "This pattern couldn't be resolved"⟩]⟩ []).1).diagnostics =
      [⟨.error, "This pattern couldn't be resolved"⟩] ∧
    ((⟨.error, "This pattern couldn't be resolved"⟩ : Diag) ∈ ([] : List Diag) ∨
      (⟨.error, "This pattern couldn't be resolved"⟩ : Diag).level = .error) := by
  refine ⟨?_, ?_, ?_⟩
  · exact trie_shared_end_node_last_insertion_wins.1 emptyTrie [PElem.other "a" 0] 1
      (⟨[⟨.other, "", [("a", 1)], none, [], none⟩, ⟨.other, "a", [], none, [], none⟩]⟩, [1])
      ⟨[⟨.other, "", [("a", 1)], none, [], none⟩, ⟨.other, "a", [], none, [], some 1⟩]⟩
      rfl rfl 1 (by decide) (by decide)
  · exact trie_shared_end_node_last_insertion_wins.2.1 (fun _ _ => none) true
      ⟨[], [], [⟨.error, "This pattern couldn't be resolved"⟩]⟩ []
  · exact trie_shared_end_node_last_insertion_wins.2.2.1 1 (fun _ _ => none) ⟨[], [], []⟩ []
      [⟨0, .effect, "a", [PElem.other "a" 0], false, none, []⟩] []
      (⟨[], List.replicate 11 emptyTrie, [⟨.error, "This pattern couldn't be resolved"⟩]⟩, false)
      rfl ⟨.error, "This pattern couldn't be resolved"⟩ (by simp)

/- ### The matcher (ParseContext::match, parseContext.cpp lines 11-28; the
step relation MatchProgress::step is declared in matchProgress.h but its
implementation is not part of this source tree) -/

/-- Whether `p` occurs verbatim at the start of `cs`. -/
def charsAt : List Char → List Char → Bool
  | [], _ => true
  | _ :: _, [] => false
  | a :: as, b :: bs => a == b && charsAt as bs

/-- Insert a child keeping texts sorted longest-first. -/
def insertByLen (x : String × Nat) : List (String × Nat) → List (String × Nat)
  | [] => [x]
  | y :: ys => if y.1.length ≤ x.1.length then x :: y :: ys else y :: insertByLen x ys

/-- Children ordered longest-text-first (the spec's "longest first" literal
rule). -/
def sortByLenDesc (l : List (String × Nat)) : List (String × Nat) :=
  l.foldl (fun acc x => insertByLen x acc) []

mutual
/-- Modelled from the spec: the matcher is a depth-first walk of the trie
over the reference's text; a walk is complete when the text is consumed at a
node holding a matching definition, and at each node the literal children
whose text occurs at the current position are tried longest-first. (Only the
literal-child rule is modelled; the variable/word sub-match edges of the
spec's step 2-3 are not needed by the properties proved here.) -/
def matchWalkF : Nat → Trie → Nat → List Char → Option Nat
  | 0, _, _, _ => none
  | fuel + 1, t, nid, cs =>
    let nd := t.nodes.getD nid defaultNode
    if cs.isEmpty then
      if nd.matchingDefinition.isSome then some nid else none
    else
      matchTryChildrenF fuel t (sortByLenDesc nd.literalChildren) cs

/-- Modelled from the spec: try each literal child in order; on failure of a
child's whole subtree, backtrack to the next child. -/
def matchTryChildrenF : Nat → Trie → List (String × Nat) → List Char → Option Nat
  | 0, _, _, _ => none
  | _ + 1, _, [], _ => none
  | fuel + 1, t, (txt, child) :: rest, cs =>
    if charsAt txt.toList cs then
      match matchWalkF fuel t child (cs.drop txt.length) with
      | some r => some r
      | none => matchTryChildrenF fuel t rest cs
    else matchTryChildrenF fuel t rest cs
end

/-- Modelled from the spec: the driver of `ParseContext::match` — walk from
the trie root over the whole reference text. -/
def matchText (t : Trie) (s : String) : Option Nat :=
  matchWalkF (4 * (s.length + 1) * (t.nodes.length + 1)) t 0 s.toList

/-- C7: the empty-alternative space absorption of patternElement.cpp lines
119-136 — when a Choice has at least one empty alternative and the character
right after the `]` is a space, one single-space literal is appended to every
non-empty alternative and the space is consumed from the outer sequence, and
in no other case; concretely `[the|] result` parses with the space absorbed
into the `the` alternative, and inserting the parsed definition produces a
trie in which the call-site texts `result` and `the result` walk to the same
end node (node 3) and hence resolve to the same definition (42). -/
theorem choice_space_absorption_and_shared_resolution :
    (∀ (choicePos spacePos : Nat) (alts : List (List PElem)),
        alts.any List.isEmpty = true →
        buildChoice choicePos alts true spacePos =
          (.choice choicePos
            (alts.map fun alt => if alt.isEmpty then alt else alt ++ [.other " " spacePos]),
            true)) ∧
    (∀ (choicePos spacePos : Nat) (alts : List (List PElem)) (nextIsSpace : Bool),
        alts.any List.isEmpty = false ∨ nextIsSpace = false →
        buildChoice choicePos alts nextIsSpace spacePos = (.choice choicePos alts, false)) ∧
    parsePatternElements "[the|] result" =
      some [.choice 0 [[.variableLike "the" 1, .other " " 6], []],
        .variableLike "result" 7] ∧
    ((parsePatternElements "[the|] result").bind
        (fun els => addPatternPart emptyTrie els 42)).map
      (fun t => (matchText t "result", matchText t "the result",
        (matchText t "result").bind
          (fun n => (t.nodes.getD n defaultNode).matchingDefinition))) =
      some (some 3, some 3, some 42) := by
  refine ⟨?_, ?_, rfl, rfl⟩
  · intro choicePos spacePos alts h
    simp [buildChoice, h]
  · intro choicePos spacePos alts nextIsSpace h
    rcases h with h | h
    · simp [buildChoice, h]
    · simp [buildChoice, h]

theorem choice_space_absorption_and_shared_resolution_witness :
    buildChoice 0 [[PElem.other "the" 1], []] true 6 =
      (.choice 0 [[PElem.other "the" 1, PElem.other " " 6], []], true) ∧
    buildChoice 0 [[PElem.other "the" 1]] true 6 =
      (.choice 0 [[PElem.other "the" 1]], false) ∧
    buildChoice 0 [[PElem.other "the" 1], []] false 6 =
      (.choice 0 [[PElem.other "the" 1], []], false) := by
  refine ⟨?_, ?_, ?_⟩
  · exact choice_space_absorption_and_shared_resolution.1 0 6 [[PElem.other "the" 1], []] rfl
  · exact choice_space_absorption_and_shared_resolution.2.1 0 6 [[PElem.other "the" 1]] true
      (Or.inl rfl)
  · exact choice_space_absorption_and_shared_resolution.2.1 0 6 [[PElem.other "the" 1], []] false
      (Or.inr rfl)

/- ### Variable scope resolution (compiler.cpp lines 497-524) and run-to-run
determinism. The per-name group loop iterates a `std::unordered_map`, whose
iteration order the C++ standard leaves unspecified; the final state is shown
invariant under that order. -/

/-- A `VariableReference` as the scope pass sees it: arena id, owning section
id, the write slot of `range.section()->variableDefinitions[name]` (`defKey`
encodes the pair of owning section and name — the C++ map is per-section and
keyed by name, so slots of different names never coincide), and
`range.line->mergedLineIndex`. -/
structure RefV where
  id : Nat
  sectionId : Nat
  defKey : Nat
  mergedLineIndex : Nat
deriving DecidableEq, Repr

/-- The writes of the scope pass for one name: `variableDefinitions[name]`
per section, `variables[name]` per highest ancestor section, and the
`definition` field per reference, all indexed by arena id. -/
structure ScopeSt where
  variableDefinitions : List (Option Nat)
  scopeVariables : List (Option Nat)
  refDefinition : List (Option Nat)
deriving DecidableEq, Repr

/-- `std::min_element` with a strict `<` on `mergedLineIndex` — the first
element among those with the smallest index (compiler.cpp lines 514-516). -/
def minByLine : List RefV → Option RefV
  | [] => none
  | r :: rs =>
    some (rs.foldl (fun best x => if x.mergedLineIndex < best.mergedLineIndex then x else best) r)

/-- `ref->definition = definition` for every non-definition reference of the
group (compiler.cpp lines 519-522). -/
def writeRefs (d : Nat) : List RefV → List (Option Nat) → List (Option Nat)
  | [], l => l
  | r :: rs, l => writeRefs d rs (if r.id = d then l else l.set r.id (some d))

/-- The body of the per-group loop (compiler.cpp lines 513-523): pick the
earliest reference as the definition, record it in its section's
`variableDefinitions[name]` slot (`defKey`) and in the highest ancestor's
`variables[name]` slot (the group key, which likewise encodes section and
name), and point the other references at it. -/
def processGroup (st : ScopeSt) (g : Nat × List RefV) : ScopeSt :=
  match minByLine g.2 with
  | none => st
  | some defn =>
    { variableDefinitions := st.variableDefinitions.set defn.defKey (some defn.id),
      scopeVariables := st.scopeVariables.set g.1 (some defn.id),
      refDefinition := writeRefs defn.id g.2 st.refDefinition }

/-- The whole group loop, in a given iteration order. -/
def resolveNameGroups (st : ScopeSt) (gs : List (Nat × List RefV)) : ScopeSt :=
  gs.foldl processGroup st

/-- `groups[key].push_back(ref)` (compiler.cpp lines 510-512): append to the
group of the key, creating it at the end on first sight. -/
def addToGroups : List (Nat × List RefV) → Nat → RefV → List (Nat × List RefV)
  | [], k, r => [(k, [r])]
  | (k', l) :: gs, k, r =>
    if k' = k then (k, l ++ [r]) :: gs else (k', l) :: addToGroups gs k r

/-- The grouping of a name's references by their highest-ancestor section
`f` (`sectionToHighest`, compiler.cpp lines 498-512). -/
def buildGroups (f : Nat → Nat) (refs : List RefV) : List (Nat × List RefV) :=
  refs.foldl (fun gs r => addToGroups gs (f r.sectionId) r) []

/-- The well-formedness the grouping guarantees: distinct keys, and every
member's key-image is its group's key and the member comes from the input. -/
def GroupsWF (f : Nat → Nat) (refs : List RefV) (gs : List (Nat × List RefV)) : Prop :=
  List.Pairwise (fun g1 g2 => g1.1 ≠ g2.1) gs ∧
  ∀ g ∈ gs, ∀ r ∈ g.2, f r.sectionId = g.1 ∧ r ∈ refs

theorem minByLine_mem : ∀ (l : List RefV) (d : RefV), minByLine l = some d → d ∈ l := by
  intro l d h
  match l with
  | [] => exact Option.noConfusion h
  | r :: rs =>
    simp only [minByLine, Option.some.injEq] at h
    have hgen : ∀ (rs' : List RefV) (best : RefV),
        rs'.foldl (fun best x => if x.mergedLineIndex < best.mergedLineIndex then x else best)
          best = best ∨
        rs'.foldl (fun best x => if x.mergedLineIndex < best.mergedLineIndex then x else best)
          best ∈ rs' := by
      intro rs'
      induction rs' with
      | nil => intro best; exact Or.inl rfl
      | cons x xs ih =>
        intro best
        simp only [List.foldl_cons]
        rcases ih (if x.mergedLineIndex < best.mergedLineIndex then x else best) with hh | hh
        · rw [hh]
          split
          · exact Or.inr (List.mem_cons_self _ _)
          · exact Or.inl rfl
        · exact Or.inr (List.mem_cons_of_mem _ hh)
    rcases hgen rs r with hh | hh
    · rw [← h, hh]
      exact List.mem_cons_self _ _
    · rw [← h]
      exact List.mem_cons_of_mem _ hh

theorem writeRefs_set_push (d : Nat) :
    ∀ (refs : List RefV) (l : List (Option Nat)) (j : Nat) (v : Option Nat),
      (∀ r ∈ refs, r.id ≠ j) →
      writeRefs d refs (l.set j v) = (writeRefs d refs l).set j v := by
  intro refs
  induction refs with
  | nil => intro l j v _; rfl
  | cons r rs ih =>
    intro l j v h
    have hr : r.id ≠ j := h r (List.mem_cons_self _ _)
    have hrest : ∀ r' ∈ rs, r'.id ≠ j := fun r' hr' => h r' (List.mem_cons_of_mem _ hr')
    simp only [writeRefs]
    split
    · exact ih l j v hrest
    · rw [List.set_comm v (some d) l (show j ≠ r.id from fun hh => hr hh.symm)]
      exact ih _ j v hrest

theorem writeRefs_comm (d1 d2 : Nat) :
    ∀ (rs1 rs2 : List RefV) (l : List (Option Nat)),
      (∀ a ∈ rs1, ∀ b ∈ rs2, a.id ≠ b.id) →
      writeRefs d2 rs2 (writeRefs d1 rs1 l) = writeRefs d1 rs1 (writeRefs d2 rs2 l) := by
  intro rs1
  induction rs1 with
  | nil => intro rs2 l _; rfl
  | cons r rs ih =>
    intro rs2 l h
    have hr : ∀ b ∈ rs2, r.id ≠ b.id := fun b hb => h r (List.mem_cons_self _ _) b hb
    have hrest : ∀ a ∈ rs, ∀ b ∈ rs2, a.id ≠ b.id :=
      fun a ha b hb => h a (List.mem_cons_of_mem _ ha) b hb
    simp only [writeRefs]
    split
    · exact ih rs2 l hrest
    · rw [ih rs2 _ hrest, writeRefs_set_push d2 rs2 l r.id (some d1)
        (fun b hb hh => hr b hb hh.symm)]

theorem processGroup_comm (x y : Nat × List RefV)
    (hk : x.1 ≠ y.1)
    (hsec : ∀ a ∈ x.2, ∀ b ∈ y.2, a.defKey ≠ b.defKey)
    (hids : ∀ a ∈ x.2, ∀ b ∈ y.2, a.id ≠ b.id) :
    ∀ st : ScopeSt, processGroup (processGroup st x) y = processGroup (processGroup st y) x := by
  intro st
  rcases hmx : minByLine x.2 with _ | dx
  · rcases hmy : minByLine y.2 with _ | dy
    · simp only [processGroup, hmx, hmy]
    · simp only [processGroup, hmx, hmy]
  · rcases hmy : minByLine y.2 with _ | dy
    · simp only [processGroup, hmx, hmy]
    · have hdx := minByLine_mem x.2 dx hmx
      have hdy := minByLine_mem y.2 dy hmy
      simp only [processGroup, hmx, hmy, ScopeSt.mk.injEq]
      refine ⟨?_, ?_, ?_⟩
      · exact List.set_comm _ _ _ (hsec dx hdx dy hdy)
      · exact List.set_comm _ _ _ hk
      · exact writeRefs_comm dx.id dy.id x.2 y.2 st.refDefinition hids

theorem addToGroups_keys :
    ∀ (gs : List (Nat × List RefV)) (k : Nat) (r : RefV) (g : Nat × List RefV),
      g ∈ addToGroups gs k r → g.1 = k ∨ g.1 ∈ gs.map Prod.fst := by
  intro gs
  induction gs with
  | nil =>
    intro k r g hg
    simp only [addToGroups] at hg
    rcases List.mem_singleton.mp hg with h
    rw [h]
    exact Or.inl rfl
  | cons g0 gs ih =>
    intro k r g hg
    rcases g0 with ⟨k', l⟩
    simp only [addToGroups] at hg
    split at hg
    · rcases List.mem_cons.mp hg with h | h
      · rw [h]
        exact Or.inl rfl
      · exact Or.inr (List.mem_cons_of_mem _ (List.mem_map_of_mem Prod.fst h))
    · rcases List.mem_cons.mp hg with h | h
      · rw [h]
        exact Or.inr (List.mem_cons_self _ _)
      · rcases ih k r g h with hh | hh
        · exact Or.inl hh
        · exact Or.inr (List.mem_cons_of_mem _ hh)

theorem addToGroups_wf (f : Nat → Nat) (R : List RefV) :
    ∀ (gs : List (Nat × List RefV)) (k : Nat) (r : RefV),
      f r.sectionId = k → r ∈ R →
      (List.Pairwise (fun g1 g2 => g1.1 ≠ g2.1) gs ∧
        ∀ g ∈ gs, ∀ r' ∈ g.2, f r'.sectionId = g.1 ∧ r' ∈ R) →
      List.Pairwise (fun g1 g2 => g1.1 ≠ g2.1) (addToGroups gs k r) ∧
        ∀ g ∈ addToGroups gs k r, ∀ r' ∈ g.2, f r'.sectionId = g.1 ∧ r' ∈ R := by
  intro gs
  induction gs with
  | nil =>
    intro k r hf hr _
    refine ⟨List.pairwise_singleton _ _, ?_⟩
    intro g hg r' hr'
    rcases List.mem_singleton.mp hg with h
    rw [h] at hr' ⊢
    rcases List.mem_singleton.mp hr' with h2
    rw [h2]
    exact ⟨hf, hr⟩
  | cons g0 gs ih =>
    intro k r hf hr hwf
    obtain ⟨hp, hm⟩ := hwf
    rcases g0 with ⟨k', l⟩
    rw [List.pairwise_cons] at hp
    obtain ⟨hph, hpt⟩ := hp
    simp only [addToGroups]
    split
    case isTrue hkk =>
      constructor
      · rw [List.pairwise_cons]
        refine ⟨?_, hpt⟩
        intro g' hg'
        rw [show ((k, l ++ [r]) : Nat × List RefV).1 = k' from hkk ▸ rfl]
        exact hph g' hg'
      · intro g hg r' hr'
        rcases List.mem_cons.mp hg with h | h
        · rw [h] at hr' ⊢
          rcases List.mem_append.mp hr' with h2 | h2
          · have := hm (k', l) (List.mem_cons_self _ _) r' h2
            exact ⟨by rw [this.1, hkk], this.2⟩
          · rcases List.mem_singleton.mp h2 with h3
            rw [h3]
            exact ⟨hf, hr⟩
        · exact hm g (List.mem_cons_of_mem _ h) r' hr'
    case isFalse hkk =>
      have ihr := ih k r hf hr ⟨hpt, fun g hg => hm g (List.mem_cons_of_mem _ hg)⟩
      constructor
      · rw [List.pairwise_cons]
        refine ⟨?_, ihr.1⟩
        intro g' hg'
        rcases addToGroups_keys gs k r g' hg' with hh | hh
        · rw [hh]
          exact hkk
        · rcases List.mem_map.mp hh with ⟨g'', hg'', hfst⟩
          rw [← hfst]
          exact hph g'' hg''
      · intro g hg r' hr'
        rcases List.mem_cons.mp hg with h | h
        · rw [h] at hr' ⊢
          exact hm (k', l) (List.mem_cons_self _ _) r' hr'
        · exact ihr.2 g h r' hr'

theorem buildGroups_wf (f : Nat → Nat) (refs : List RefV) :
    GroupsWF f refs (buildGroups f refs) := by
  have hgen : ∀ (l : List RefV) (gs : List (Nat × List RefV)),
      (∀ r ∈ l, r ∈ refs) →
      (List.Pairwise (fun g1 g2 => g1.1 ≠ g2.1) gs ∧
        ∀ g ∈ gs, ∀ r' ∈ g.2, f r'.sectionId = g.1 ∧ r' ∈ refs) →
      List.Pairwise (fun g1 g2 => g1.1 ≠ g2.1)
          (l.foldl (fun gs r => addToGroups gs (f r.sectionId) r) gs) ∧
        ∀ g ∈ l.foldl (fun gs r => addToGroups gs (f r.sectionId) r) gs,
          ∀ r' ∈ g.2, f r'.sectionId = g.1 ∧ r' ∈ refs := by
    intro l
    induction l with
    | nil => intro gs _ hwf; exact hwf
    | cons r l ih =>
      intro gs hl hwf
      simp only [List.foldl_cons]
      exact ih _ (fun r' hr' => hl r' (List.mem_cons_of_mem _ hr'))
        (addToGroups_wf f refs gs (f r.sectionId) r rfl (hl r (List.mem_cons_self _ _)) hwf)
  exact hgen refs [] (fun _ h => h) ⟨List.Pairwise.nil, by intro g hg; simp at hg⟩

/-- Pairwise write-disjointness of two groups: distinct `variables[name]`
keys, distinct `variableDefinitions[name]` slots among their members, and
distinct reference arena ids. In the program this holds across the whole
two-level loop (all names' groups together): keys and slots encode (section,
name) pairs, names partition the references, and within one name the groups
partition its references by highest ancestor. -/
def GroupsDisjoint (x y : Nat × List RefV) : Prop :=
  x.1 ≠ y.1 ∧ (∀ a ∈ x.2, ∀ b ∈ y.2, a.defKey ≠ b.defKey) ∧
    ∀ a ∈ x.2, ∀ b ∈ y.2, a.id ≠ b.id

instance (x y : Nat × List RefV) : Decidable (GroupsDisjoint x y) := by
  unfold GroupsDisjoint
  infer_instance

/-- One write of `defaultNumericTypes`' per-variable loop (compiler.cpp lines
870-873): default the variable's own type slot. -/
def defaultVarStep (ts : List Ty) (k : Nat) : List Ty :=
  ts.set k (defaultTyToI32 (ts.getD k ⟨.undeduced, 0, 0⟩))

/-- The whole `section->variables` loop of `defaultNumericTypes` in a given
iteration order of the `unordered_map`. -/
def defaultVarsPass (tys : List Ty) (order : List Nat) : List Ty :=
  order.foldl defaultVarStep tys

/-- The untyped-variable check of `inferTypes` (compiler.cpp lines 997-1005)
over one section's `variables` map in a given iteration order: one Error
diagnostic per variable without a deduced type, pushed in iteration order,
and the surviving `valid` contribution. -/
def validateVarsPass (vars : List (String × Ty)) : List Diag × Bool :=
  (vars.filterMap (fun v =>
      if v.2.isDeduced then none
      else some ⟨.error, "Variable '" ++ v.1 ++ "' has no type (never assigned a value)"⟩),
    vars.all (fun v => v.2.isDeduced))

/-- C9 counterexample: the spec claims two runs yield identical ordered
diagnostic lists, but the untyped-variable diagnostics of `inferTypes`
(compiler.cpp lines 997-1005) are pushed while iterating a
`std::unordered_map`, whose iteration order the code does not fix: the same
two untyped variables visited in the two admissible orders produce different
ordered diagnostic lists. -/
theorem untyped_variable_diag_order_counterexample :
    List.Perm [("a", (⟨.undeduced, 0, 0⟩ : Ty)), ("b", ⟨.undeduced, 0, 0⟩)]
      [("b", (⟨.undeduced, 0, 0⟩ : Ty)), ("a", ⟨.undeduced, 0, 0⟩)] ∧
    (validateVarsPass [("a", ⟨.undeduced, 0, 0⟩), ("b", ⟨.undeduced, 0, 0⟩)]).1 ≠
      (validateVarsPass [("b", ⟨.undeduced, 0, 0⟩), ("a", ⟨.undeduced, 0, 0⟩)]).1 := by
  exact ⟨by decide, by decide⟩

/-- C9 (amended): the unordered-container iterations of the pipeline cannot
change program graphs or the diagnostic multiset, and all of them except the
untyped-variable check also leave the diagnostic order unchanged: the whole
two-level scope pass (the outer `unordered_map` over names at compiler.cpp
line 497 together with each name's group map at line 513) is invariant under
any iteration order, as is `defaultNumericTypes`' variables loop; the
untyped-variable check keeps its `valid` verdict and emits the same
diagnostics up to permutation, their order following the map's iteration
order — so run-to-run identity of the full ordered list holds exactly when
the containers iterate identically, which the code itself does not fix. -/
theorem pipeline_unordered_iteration_invariance :
    (∀ (st : ScopeSt) (gs gs2 : List (Nat × List RefV)),
        (∀ x ∈ gs, ∀ y ∈ gs, x ≠ y → GroupsDisjoint x y) →
        List.Perm gs gs2 →
        resolveNameGroups st gs = resolveNameGroups st gs2) ∧
    (∀ (f : Nat → Nat) (refs : List RefV) (st : ScopeSt) (gs2 : List (Nat × List RefV)),
        List.Pairwise (fun a b => a.id ≠ b.id) refs →
        (∀ a ∈ refs, ∀ b ∈ refs, a.defKey = b.defKey → a.sectionId = b.sectionId) →
        List.Perm (buildGroups f refs) gs2 →
        resolveNameGroups st (buildGroups f refs) = resolveNameGroups st gs2) ∧
    (∀ (tys : List Ty) (order order2 : List Nat),
        List.Perm order order2 →
        defaultVarsPass tys order = defaultVarsPass tys order2) ∧
    (∀ (vars vars2 : List (String × Ty)),
        List.Perm vars vars2 →
        List.Perm (validateVarsPass vars).1 (validateVarsPass vars2).1 ∧
          (validateVarsPass vars).2 = (validateVarsPass vars2).2) := by
  have hgen : ∀ (st : ScopeSt) (gs gs2 : List (Nat × List RefV)),
      (∀ x ∈ gs, ∀ y ∈ gs, x ≠ y → GroupsDisjoint x y) →
      List.Perm gs gs2 →
      resolveNameGroups st gs = resolveNameGroups st gs2 := by
    intro st gs gs2 hdisj hperm
    refine hperm.foldl_eq' ?_ st
    intro x hx y hy z
    by_cases hxy : x = y
    · rw [hxy]
    · obtain ⟨hk, hdef, hids⟩ := hdisj x hx y hy hxy
      exact processGroup_comm x y hk hdef hids z
  refine ⟨hgen, ?_, ?_, ?_⟩
  · intro f refs st gs2 hids hinj hperm
    obtain ⟨hkeys, hmem⟩ := buildGroups_wf f refs
    have hidInj : ∀ a ∈ refs, ∀ b ∈ refs, a.id = b.id → a = b := by
      intro a ha b hb hab
      by_contra hne
      exact List.Pairwise.forall (fun _ _ h => h.symm) hids ha hb hne hab
    refine hgen st _ gs2 ?_ hperm
    intro x hx y hy hxy
    have hk : x.1 ≠ y.1 :=
      List.Pairwise.forall (fun _ _ h => h.symm) hkeys hx hy hxy
    refine ⟨hk, ?_, ?_⟩
    · intro a ha b hb hab
      have h1 := (hmem x hx a ha).1
      have h2 := (hmem y hy b hb).1
      have hsec := hinj a (hmem x hx a ha).2 b (hmem y hy b hb).2 hab
      rw [← h1, ← h2, hsec] at hk
      exact hk rfl
    · intro a ha b hb hab
      have hae := hidInj a (hmem x hx a ha).2 b (hmem y hy b hb).2 hab
      have h1 := (hmem x hx a ha).1
      have h2 := (hmem y hy b hb).1
      rw [← h1, ← h2, hae] at hk
      exact hk rfl
  · intro tys order order2 hperm
    refine hperm.foldl_eq' ?_ tys
    intro x _ y _ z
    by_cases hxy : x = y
    · rw [hxy]
    · simp only [defaultVarStep]
      rw [getDSetNe z x y _ _ hxy, getDSetNe z y x _ _ (fun hh => hxy hh.symm)]
      exact List.set_comm _ _ _ hxy
  · intro vars vars2 hperm
    constructor
    · exact hperm.filterMap _
    · simp only [validateVarsPass]
      rcases hall : vars.all (fun v => v.2.isDeduced) with _ | _
      · symm
        rcases hall2 : vars2.all (fun v => v.2.isDeduced) with _ | _
        · rfl
        · rw [List.all_eq_true] at hall2
          have : vars.all (fun v => v.2.isDeduced) = true := by
            rw [List.all_eq_true]
            intro x hx
            exact hall2 x (hperm.mem_iff.mp hx)
          rw [this] at hall
          exact hall
      · symm
        rw [List.all_eq_true] at hall
        rw [List.all_eq_true]
        intro x hx
        exact hall x (hperm.mem_iff.mpr hx)

theorem pipeline_unordered_iteration_invariance_witness :
    resolveNameGroups ⟨List.replicate 12 none, List.replicate 2 none, List.replicate 2 none⟩
        [(0, [⟨0, 0, 10, 5⟩]), (1, [⟨1, 0, 11, 3⟩])] =
      resolveNameGroups ⟨List.replicate 12 none, List.replicate 2 none, List.replicate 2 none⟩
        [(1, [⟨1, 0, 11, 3⟩]), (0, [⟨0, 0, 10, 5⟩])] ∧
    defaultVarsPass [⟨.numeric, 0, 0⟩, ⟨.string, 0, 0⟩] [0, 1] =
      defaultVarsPass [⟨.numeric, 0, 0⟩, ⟨.string, 0, 0⟩] [1, 0] ∧
    (validateVarsPass [("a", ⟨.undeduced, 0, 0⟩), ("b", ⟨.bool, 0, 0⟩)]).2 =
      (validateVarsPass [("b", ⟨.bool, 0, 0⟩), ("a", ⟨.undeduced, 0, 0⟩)]).2 := by
  refine ⟨?_, ?_, ?_⟩
  · exact pipeline_unordered_iteration_invariance.1
      ⟨List.replicate 12 none, List.replicate 2 none, List.replicate 2 none⟩
      [(0, [⟨0, 0, 10, 5⟩]), (1, [⟨1, 0, 11, 3⟩])]
      [(1, [⟨1, 0, 11, 3⟩]), (0, [⟨0, 0, 10, 5⟩])] (by decide) (by decide)
  · exact pipeline_unordered_iteration_invariance.2.2.1
      [⟨.numeric, 0, 0⟩, ⟨.string, 0, 0⟩] [0, 1] [1, 0] (by decide)
  · exact (pipeline_unordered_iteration_invariance.2.2.2
      [("a", ⟨.undeduced, 0, 0⟩), ("b", ⟨.bool, 0, 0⟩)]
      [("b", ⟨.bool, 0, 0⟩), ("a", ⟨.undeduced, 0, 0⟩)] (by decide)).2
